import Mathlib

/-!
Verification of the B-Tree and RMI index engines of the `algoritmos-proyecto7-pc3`
repository.

The B-Tree code lives in the repository's notebook (`BTreeNode.__init__`,
`BTree.__init__`, `BTree.search`, `BTree._search_recursive`, `BTree.insert`,
`BTree._insert_non_full`, `BTree._split_child`).  It is embedded shallowly below:
Python objects become an inductive tree type, in-place mutation becomes functional
update, and Python `list` indexing that can raise `IndexError` is modelled in the
`Option` monad (`none` = exception).  Recursive procedures whose recursion is not
structural (search descends into a child, insertion descends into a possibly
re-split child) take an explicit fuel argument; top-level wrappers pass `tsize`
of the tree, which is proved sufficient on the trees the code actually builds,
so the embedding agrees with the unbounded Python recursion there.

The RMI code is not part of the sources handed to us (only the spec describes
`LinearModel`, `RMIModel.predict` and `RMIModel.search`), so that component is
modelled from the spec at the end of the definitions section.
-/

/-- A node of the B-tree, mirroring `BTreeNode.__init__`: the `is_leaf` flag, the
list of keys, the list of children and the bookkeeping counter `n_keys`.  (The
Python object also stores `t`, which no method of the node ever reads; the tree
order is threaded through the operations exactly as `self.t` is in class `BTree`.) -/
inductive BTreeNode : Type where
  | mk (is_leaf : Bool) (keys : List Int) (children : List BTreeNode) (n_keys : Nat)

namespace BTreeNode

/-- The `is_leaf` attribute. -/
def is_leaf : BTreeNode → Bool
  | .mk l _ _ _ => l

/-- The `keys` attribute. -/
def keys : BTreeNode → List Int
  | .mk _ k _ _ => k

/-- The `children` attribute. -/
def children : BTreeNode → List BTreeNode
  | .mk _ _ c _ => c

/-- The `n_keys` attribute. -/
def n_keys : BTreeNode → Nat
  | .mk _ _ _ n => n

/-- A freshly constructed node, `BTreeNode(t, is_leaf)`: empty key list, empty
child list, zero key count. -/
def new (l : Bool) : BTreeNode := .mk l [] [] 0

end BTreeNode

instance : Inhabited BTreeNode := ⟨BTreeNode.new true⟩

mutual

/-- Structural size of a node (number of nodes in the subtree); used as a fuel
bound for the descending procedures. -/
def tsize : BTreeNode → Nat
  | .mk _ _ children _ => 1 + tsizeL children

/-- Structural size of a list of nodes. -/
def tsizeL : List BTreeNode → Nat
  | [] => 0
  | c :: cs => tsize c + tsizeL cs

end

mutual

/-- In-order traversal of a subtree: the keys interleaved with the traversals of
the children (`children[0], keys[0], children[1], …, keys[k-1], children[k]`).
For a leaf (no children) this is just the key list. -/
def inorder : BTreeNode → List Int
  | .mk _ keys children _ => inorderMerge keys children

/-- Interleaving of a key list with a child list for the in-order traversal. -/
def inorderMerge : List Int → List BTreeNode → List Int
  | keys, [] => keys
  | [], c :: cs => inorder c ++ inorderMerge [] cs
  | k :: ks, c :: cs => inorder c ++ k :: inorderMerge ks cs

end

mutual

/-- Height of a subtree: one more than the maximal height of a child. -/
def height : BTreeNode → Nat
  | .mk _ _ children _ => 1 + heightL children

/-- Maximal height of a list of nodes (0 for the empty list). -/
def heightL : List BTreeNode → Nat
  | [] => 0
  | c :: cs => max (height c) (heightL cs)

end

/-- Do all nodes of the list have height `h`? -/
def allHeightEq (h : Nat) : List BTreeNode → Bool
  | [] => true
  | c :: cs => (height c == h) && allHeightEq h cs

mutual

/-- Equal-depth balance: every child has the same height and is itself balanced.
This is equivalent to all leaves of the subtree lying at the same depth. -/
def balanced : BTreeNode → Bool
  | .mk _ _ children _ => allHeightEq (heightL children) children && balancedL children

/-- All nodes of the list are balanced. -/
def balancedL : List BTreeNode → Bool
  | [] => true
  | c :: cs => balanced c && balancedL cs

end

mutual

/-- Depths (distance from this node) of all leaves of the subtree, in traversal
order.  A node with an empty child list contributes depth 0. -/
def leafDepths : BTreeNode → List Nat
  | .mk _ _ children _ =>
    match children with
    | [] => [0]
    | c :: cs => leafDepthsL (c :: cs)

/-- Depths of the leaves below any node of the list, each shifted by one level. -/
def leafDepthsL : List BTreeNode → List Nat
  | [] => []
  | c :: cs => (leafDepths c).map (· + 1) ++ leafDepthsL cs

end

mutual

/-- Structural well-formedness of a subtree for order `t` (`root` marks the root,
which is exempt from the minimal key count): the bookkeeping counter agrees with
the key list, key counts are within `[t-1, 2t-1]` (lower bound for non-root
nodes only), a leaf has no children, an internal node with `k` keys has `k+1`
children, and all children are (non-root) well-formed. -/
def wfNode (t : Nat) (root : Bool) : BTreeNode → Bool
  | .mk l keys children n =>
    (n == keys.length) &&
    decide (keys.length ≤ 2 * t - 1) &&
    (root || decide (t - 1 ≤ keys.length)) &&
    (if l then children.isEmpty else children.length == keys.length + 1) &&
    wfL t children

/-- All nodes of the list are well-formed as non-root nodes. -/
def wfL (t : Nat) : List BTreeNode → Bool
  | [] => true
  | c :: cs => wfNode t false c && wfL t cs

end

/-- Is `x` above the (optional, exclusive) lower bound? -/
def okLo : Option Int → Int → Bool
  | none, _ => true
  | some lo, x => decide (lo < x)

/-- Is `x` below the (optional, exclusive) upper bound? -/
def okHi : Int → Option Int → Bool
  | _, none => true
  | x, some hi => decide (x < hi)

/-- The key list is strictly increasing and every key lies strictly between the
bounds. -/
def keysBetween (lo hi : Option Int) : List Int → Bool
  | [] => true
  | k :: ks => okLo lo k && okHi k hi && keysBetween (some k) hi ks

mutual

/-- Ordering invariant of a subtree relative to exclusive bounds `lo < · < hi`:
the keys are strictly increasing within the bounds and each child's subtree lies
strictly between the neighbouring keys (respectively the outer bound on the two
flanks). -/
def nodeOrdered (lo hi : Option Int) : BTreeNode → Bool
  | .mk _ keys children _ => seqOrdered lo hi keys children

/-- Ordering of a key list interleaved with a child list. -/
def seqOrdered (lo hi : Option Int) : List Int → List BTreeNode → Bool
  | keys, [] => keysBetween lo hi keys
  | [], [c] => nodeOrdered lo hi c
  | [], _ :: _ :: _ => false
  | k :: ks, c :: cs =>
    okLo lo k && okHi k hi && nodeOrdered lo (some k) c && seqOrdered (some k) hi ks cs

end

/-- The scan loop of `_search_recursive`: starting from index `i` (with `l` the
suffix `keys[i:]`), advance `i` while `i < n` and `key > keys[i]`.  Returns the
final index, or `none` when the loop would read `keys[i]` out of range
(Python `IndexError`). -/
def scanGe (key : Int) (n : Nat) : List Int → Nat → Option Nat
  | l, i =>
    if i < n then
      match l with
      | [] => none
      | k :: ks => if key > k then scanGe key n ks (i + 1) else some i
    else some i

/-- The descending scan of `_insert_non_full`: starting from `i = j - 1`, decrement
while `i ≥ 0` and `key < keys[i]`; the argument is `j = i + 1` so the result is
the final `i + 1` (the Python code uses this value both as the leaf insertion
position and, after its `i += 1`, as the child index).  `none` models an
out-of-range read of `keys[i]`. -/
def scanDown (keys : List Int) (key : Int) : Nat → Option Nat
  | 0 => some 0
  | j + 1 =>
    match keys[j]? with
    | none => none
    | some k => if key < k then scanDown keys key j else some (j + 1)

/-- Result of `BTree.search` / `BTree._search_recursive`: the outer `Option` is
normal completion versus `IndexError`, the inner `Option` is the found
`(node, index)` pair versus the `(None, None)` sentinel. -/
abbrev SearchResult := Option (Option (BTreeNode × Nat))

/-- `BTree._search_recursive(node, key)`: move `i` to the first key `≥ key`
(the `scanGe` loop); if `i < n_keys` and `keys[i] == key` return `(node, i)`;
otherwise return the sentinel at a leaf, or descend into `children[i]`.
`fuel` bounds the recursion depth (callers pass `tsize`, always sufficient). -/
def searchRec (key : Int) : Nat → BTreeNode → SearchResult
  | fuel, .mk l keys children n =>
    match scanGe key n keys 0 with
    | none => none
    | some i =>
      if i < n then
        match keys[i]? with
        | none => none
        | some k =>
          if key == k then some (some (.mk l keys children n, i))
          else if l then some none
          else
            match children[i]? with
            | none => none
            | some c =>
              match fuel with
              | 0 => none
              | fuel' + 1 => searchRec key fuel' c
      else if l then some none
      else
        match children[i]? with
        | none => none
        | some c =>
          match fuel with
          | 0 => none
          | fuel' + 1 => searchRec key fuel' c

/-- The full-node test `node.n_keys == (2 * self.t - 1)`, computed over the
integers as in Python (so it is never satisfied for `t = 0`, where
`2 * t - 1 = -1`). -/
def isFull (t : Nat) (node : BTreeNode) : Bool :=
  ((node.n_keys : Int) == 2 * (t : Int) - 1)

/-- `BTree._split_child(parent_node, i)`: the full child `children[i]` keeps its
first `t-1` keys, a new sibling gets the keys after position `t-1`, the child
list of an internal child is divided `t` / `t`, the median `keys[t-1]` is
inserted into the parent's keys at `i`, the sibling into the parent's children
at `i+1`, and the parent's key count grows by one.  List reads use defaults
(`getD`); all callers in `insert` establish the bounds. -/
def splitChild (t : Nat) (parent : BTreeNode) (i : Nat) : BTreeNode :=
  match parent with
  | .mk pl pkeys pchildren pn =>
    match pchildren.getD i default with
    | .mk cl ckeys cchildren _ =>
      let median_key := ckeys.getD (t - 1) 0
      let new_keys := ckeys.drop t
      let keep_keys := ckeys.take (t - 1)
      let new_children := if cl then [] else cchildren.drop t
      let keep_children := if cl then cchildren else cchildren.take t
      let keep : BTreeNode := .mk cl keep_keys keep_children (t - 1)
      let fresh : BTreeNode := .mk cl new_keys new_children (t - 1)
      .mk pl (pkeys.insertIdx i median_key)
        ((pchildren.set i keep).insertIdx (i + 1) fresh) (pn + 1)

/-- `BTree._insert_non_full(node, key)`: at a leaf, shift the keys greater than
`key` and place `key` (the `scanDown` position); at an internal node, find the
child index, split the child first when it is full, re-aim right when the
promoted median is smaller than `key`, and recurse into the chosen child.
`fuel` bounds the recursion depth (callers pass `tsize`, always sufficient);
`none` models `IndexError` or exhausted fuel. -/
def insertNonFull (t : Nat) (key : Int) : Nat → BTreeNode → Option BTreeNode
  | _, .mk true keys children n =>
    match scanDown keys key n with
    | none => none
    | some pos => some (.mk true (keys.insertIdx pos key) children (n + 1))
  | 0, .mk false _ _ _ => none
  | fuel + 1, .mk false keys children n =>
    match scanDown keys key n with
    | none => none
    | some i0 =>
      let step : BTreeNode × Nat :=
        if isFull t (children.getD i0 default) then
          let p := splitChild t (.mk false keys children n) i0
          (p, if key > p.keys.getD i0 0 then i0 + 1 else i0)
        else (.mk false keys children n, i0)
      match step.1.children[step.2]? with
      | none => none
      | some c =>
        match insertNonFull t key fuel c with
        | none => none
        | some c' =>
          some (.mk step.1.is_leaf step.1.keys (step.1.children.set step.2 c') step.1.n_keys)

/-- The whole tree, class `BTree`: the order `t` and the root node. -/
structure BTree where
  t : Nat
  root : BTreeNode

/-- `BTree(t)`: a fresh tree whose root is an empty leaf. -/
def BTree.new (t : Nat) : BTree := ⟨t, BTreeNode.new true⟩

/-- `BTree.search(key)`: run `_search_recursive` from the root. -/
def BTree.search (tr : BTree) (key : Int) : SearchResult :=
  searchRec key (tsize tr.root) tr.root

/-- `BTree.insert(key)`: when the root is full, allocate a new root `s`, make the
old root its only child (`children.insert(0, root)`), split it, and insert into
the new structure; otherwise insert into the root directly. -/
def BTree.insert (tr : BTree) (key : Int) : Option BTree :=
  if isFull tr.t tr.root then
    let s : BTreeNode := .mk false [] (List.insertIdx 0 tr.root []) 0
    let s2 := splitChild tr.t s 0
    match insertNonFull tr.t key (tsize s2) s2 with
    | none => none
    | some r => some ⟨tr.t, r⟩
  else
    match insertNonFull tr.t key (tsize tr.root) tr.root with
    | none => none
    | some r => some ⟨tr.t, r⟩

/-- Insert a list of keys one at a time (the demo loop `for key in keys: b_tree.insert(key)`). -/
def BTree.insertMany : BTree → List Int → Option BTree
  | tr, [] => some tr
  | tr, k :: ks =>
    match tr.insert k with
    | none => none
    | some tr' => tr'.insertMany ks

/-- Build a tree of order `t` by inserting the given keys into `BTree(t)`. -/
def buildTree (t : Nat) (keys : List Int) : Option BTree :=
  (BTree.new t).insertMany keys

mutual

/-- The bookkeeping invariant of claim C9: at every node `n_keys` equals the
length of the key list, an internal node with `n_keys` keys has `n_keys + 1`
children, and a leaf has no children. -/
def bkOk : BTreeNode → Bool
  | .mk l keys children n =>
    (n == keys.length) &&
    (if l then children.isEmpty else children.length == n + 1) &&
    bkOkL children

/-- The bookkeeping invariant on a list of nodes. -/
def bkOkL : List BTreeNode → Bool
  | [] => true
  | c :: cs => bkOk c && bkOkL cs

end

mutual

/-- The key-count/child-count invariant of claim C2: every non-root node has
between `t-1` and `2t-1` keys, every internal node with `k` keys has exactly
`k+1` children, every leaf has no children. -/
def countsOk (t : Nat) (root : Bool) : BTreeNode → Bool
  | .mk l keys children _ =>
    (root || (decide (t - 1 ≤ keys.length) && decide (keys.length ≤ 2 * t - 1))) &&
    (if l then children.isEmpty else children.length == keys.length + 1) &&
    countsOkL t children

/-- The claim C2 invariant on a list of (non-root) nodes. -/
def countsOkL (t : Nat) : List BTreeNode → Bool
  | [] => true
  | c :: cs => countsOk t false c && countsOkL t cs

end

/-- The per-child condition of claim C6, exactly as the spec states it: the keys
in the subtree of `children[i]` are `≤ keys[i-1]` when `i > 0` and `< keys[i]`
when `i < k`. -/
def childKeysLe (keys : List Int) : Nat → List BTreeNode → Bool
  | _, [] => true
  | i, c :: cs =>
    (i == 0 || (inorder c).all (fun x => decide (x ≤ keys.getD (i - 1) 0))) &&
    (!(decide (i < keys.length)) || (inorder c).all (fun x => decide (x < keys.getD i 0))) &&
    childKeysLe keys (i + 1) cs

mutual

/-- Claim C6 exactly as stated by the spec, quantified over all internal nodes
of the subtree. -/
def specC6 : BTreeNode → Bool
  | .mk l keys children _ =>
    (if l then true else childKeysLe keys 0 children) && specC6L children

/-- Claim C6 as stated, on a list of nodes. -/
def specC6L : List BTreeNode → Bool
  | [] => true
  | c :: cs => specC6 c && specC6L cs

end

/-- The corrected per-child condition: the keys in the subtree of `children[i]`
are strictly greater than `keys[i-1]` when `i > 0` (the spec wrote `≤`) and
strictly less than `keys[i]` when `i < k`. -/
def childKeysBetween (keys : List Int) : Nat → List BTreeNode → Bool
  | _, [] => true
  | i, c :: cs =>
    (i == 0 || (inorder c).all (fun x => decide (keys.getD (i - 1) 0 < x))) &&
    (!(decide (i < keys.length)) || (inorder c).all (fun x => decide (x < keys.getD i 0))) &&
    childKeysBetween keys (i + 1) cs

mutual

/-- The corrected subtree-ordering invariant for claim C6, quantified over all
internal nodes of the subtree. -/
def subtreeOrder : BTreeNode → Bool
  | .mk l keys children _ =>
    (if l then true else childKeysBetween keys 0 children) && subtreeOrderL children

/-- The corrected subtree-ordering invariant on a list of nodes. -/
def subtreeOrderL : List BTreeNode → Bool
  | [] => true
  | c :: cs => subtreeOrder c && subtreeOrderL cs

end

/-- Are all numbers in the list equal? -/
def allEqNat : List Nat → Bool
  | [] => true
  | d :: ds => ds.all (· == d)

/-- Claim C3's phrasing of balance: all leaves of the subtree lie at the same
depth. -/
def equalLeafDepth (node : BTreeNode) : Bool :=
  allEqNat (leafDepths node)

/-- The spec's description of one step of `search` (§4.4): locate the first key
`≥ target`; if that position holds the target, return the match; otherwise
return `NotFound` at a leaf or descend into the child at that index.  Written
from the spec's words, to be compared with `searchRec` (claim C5). -/
def searchSpec (key : Int) : Nat → BTreeNode → SearchResult
  | fuel, .mk l keys children n =>
    let i := keys.findIdx (fun k => decide (key ≤ k))
    if i < keys.length ∧ keys.getD i 0 = key then some (some (.mk l keys children n, i))
    else if l then some none
    else
      match children[i]? with
      | none => none
      | some c =>
        match fuel with
        | 0 => none
        | fuel' + 1 => searchSpec key fuel' c

/-- Modelled from the spec: the repository's RMI sources (`LinearModel`,
`SegmentPartitioner`, `RMIModel`) are not among the files given; §3/§4.1 of the
spec define a stage model as a fitted line with `predict(x) = slope*x +
intercept`.  The real coefficients are modelled by rationals. -/
structure LinearModel where
  slope : ℚ
  intercept : ℚ

/-- Modelled from the spec: `LinearModel.predict`, a pure evaluation of the line. -/
def LinearModel.predict (m : LinearModel) (x : ℚ) : ℚ := m.slope * x + m.intercept

/-- Modelled from the spec: a stage-1 leaf, a refinement model together with its
per-segment error bound. -/
structure RMILeaf where
  model : LinearModel
  max_error : Nat

/-- Modelled from the spec: the two-tier RMI (§3, §4.3) — a stage-0 routing
model, the leaf models with error bounds, and the underlying sorted array. -/
structure RMIModel where
  stage0 : LinearModel
  leaves : List RMILeaf
  data : List Int

/-- Clip an integer prediction to the valid index range `[0, hi]`. -/
def clipIdx (x : Int) (hi : Nat) : Nat :=
  if x < 0 then 0 else min x.toNat hi

/-- Modelled from the spec: `RMIModel.predict` (§4.3) — route through stage 0,
clip to a leaf index, round and clip the leaf model's prediction to a valid
array position, and return it with that leaf's `max_error`. -/
def RMIModel.predictPos (r : RMIModel) (key : Int) : Nat × Nat :=
  let leaf_idx := clipIdx (round (r.stage0.predict (key : ℚ))) (r.leaves.length - 1)
  let leaf := r.leaves.getD leaf_idx ⟨⟨0, 0⟩, 0⟩
  let approx := clipIdx (round (leaf.model.predict (key : ℚ))) (r.data.length - 1)
  (approx, leaf.max_error)

/-- Modelled from the spec: binary search for `key` over the sorted sub-range
`A[lo..hi]` (inclusive bounds), returning an index holding `key` or `none`.
`fuel` bounds the iteration count (callers pass more than the window length,
always sufficient). -/
def binSearch (A : List Int) (key : Int) : Nat → Nat → Nat → Option Nat
  | 0, _, _ => none
  | fuel + 1, lo, hi =>
    if hi < lo then none
    else
      let mid := (lo + hi) / 2
      let v := A.getD mid 0
      if v == key then some mid
      else if v < key then binSearch A key fuel (mid + 1) hi
      else binSearch A key fuel lo (mid - 1)

/-- Modelled from the spec: `RMIModel.search` (§4.3) — binary-search the window
`[max(0, approx-bound), min(n-1, approx+bound)]` around the predicted position,
then, as the defensive fallback, binary-search the entire array before declaring
`NotFound` (`none`). -/
def RMIModel.search (r : RMIModel) (key : Int) : Option Nat :=
  let p := r.predictPos key
  let lo := p.1 - p.2
  let hi := min (r.data.length - 1) (p.1 + p.2)
  match binSearch r.data key (r.data.length + 1) lo hi with
  | some i => some i
  | none => binSearch r.data key (r.data.length + 1) 0 (r.data.length - 1)

/-- Is the integer list sorted (non-decreasing)? -/
def sortedLe : List Int → Bool
  | [] => true
  | [_] => true
  | a :: b :: l => decide (a ≤ b) && sortedLe (b :: l)

/-! ### Basic structural lemmas -/

theorem tsize_pos (node : BTreeNode) : 1 ≤ tsize node := by
  cases node with
  | mk l k c n => simp [tsize]

theorem tsize_le_of_mem {x : BTreeNode} {cs : List BTreeNode} (h : x ∈ cs) :
    tsize x ≤ tsizeL cs := by
  induction cs with
  | nil => cases h
  | cons c cs ih =>
    rcases List.mem_cons.mp h with rfl | h2
    · simp [tsizeL]
    · have := ih h2
      simp only [tsizeL]
      omega

theorem node_ind (P : BTreeNode → Prop)
    (h : ∀ l k c n, (∀ x ∈ c, P x) → P (.mk l k c n)) : ∀ node, P node
  | .mk l k c n => h l k c n (fun x hx => node_ind P h x)
termination_by node => tsize node
decreasing_by
  have := tsize_le_of_mem hx
  simp only [tsize]
  omega

theorem tsizeL_take_le (cs : List BTreeNode) (m : Nat) : tsizeL (cs.take m) ≤ tsizeL cs := by
  induction cs generalizing m with
  | nil => simp [tsizeL]
  | cons c cs ih =>
    cases m with
    | zero => simp [tsizeL]
    | succ m => simp only [List.take_succ_cons, tsizeL]; have := ih m; omega

theorem tsizeL_drop_le (cs : List BTreeNode) (m : Nat) : tsizeL (cs.drop m) ≤ tsizeL cs := by
  induction cs generalizing m with
  | nil => simp [tsizeL]
  | cons c cs ih =>
    cases m with
    | zero => simp
    | succ m =>
      simp only [List.drop_succ_cons, tsizeL]
      have := ih m
      have := tsize_pos c
      omega

theorem getD_of_getElem? {α : Type} {l : List α} {j : Nat} {x d : α} (h : l[j]? = some x) :
    l.getD j d = x := by
  simp [List.getD_eq_getElem?_getD, h]

/-! ### Pointwise characterizations of the list-level predicates -/

theorem wfL_iff {t : Nat} {cs : List BTreeNode} :
    wfL t cs = true ↔ ∀ x ∈ cs, wfNode t false x = true := by
  induction cs with
  | nil => simp [wfL]
  | cons c cs ih => simp [wfL, ih]

theorem bkOkL_iff {cs : List BTreeNode} :
    bkOkL cs = true ↔ ∀ x ∈ cs, bkOk x = true := by
  induction cs with
  | nil => simp [bkOkL]
  | cons c cs ih => simp [bkOkL, ih]

theorem countsOkL_iff {t : Nat} {cs : List BTreeNode} :
    countsOkL t cs = true ↔ ∀ x ∈ cs, countsOk t false x = true := by
  induction cs with
  | nil => simp [countsOkL]
  | cons c cs ih => simp [countsOkL, ih]

theorem balancedL_iff {cs : List BTreeNode} :
    balancedL cs = true ↔ ∀ x ∈ cs, balanced x = true := by
  induction cs with
  | nil => simp [balancedL]
  | cons c cs ih => simp [balancedL, ih]

theorem subtreeOrderL_iff {cs : List BTreeNode} :
    subtreeOrderL cs = true ↔ ∀ x ∈ cs, subtreeOrder x = true := by
  induction cs with
  | nil => simp [subtreeOrderL]
  | cons c cs ih => simp [subtreeOrderL, ih]

theorem allHeightEq_iff {h : Nat} {cs : List BTreeNode} :
    allHeightEq h cs = true ↔ ∀ x ∈ cs, height x = h := by
  induction cs with
  | nil => simp [allHeightEq]
  | cons c cs ih => simp [allHeightEq, ih]

/-! ### Scan-loop specifications -/

theorem scanDown_spec {keys : List Int} (key : Int) {j : Nat} (hj : j ≤ keys.length) :
    ∃ i, scanDown keys key j = some i ∧ i ≤ j ∧
      (∀ m, i ≤ m → m < j → key < keys.getD m 0) ∧
      (0 < i → keys.getD (i - 1) 0 ≤ key) := by
  induction j with
  | zero => exact ⟨0, rfl, le_rfl, fun m h1 h2 => by omega, fun h => by omega⟩
  | succ j ih =>
    have hjlt : j < keys.length := by omega
    have hkD : keys.getD j 0 = keys[j] := getD_of_getElem? (List.getElem?_eq_getElem hjlt)
    by_cases hlt : key < keys[j]
    · obtain ⟨i, hsc, hle, hgt, hle2⟩ := ih (by omega)
      refine ⟨i, ?_, by omega, ?_, hle2⟩
      · simp only [scanDown, List.getElem?_eq_getElem hjlt]
        simp [hlt, hsc]
      · intro m h1 h2
        rcases Nat.lt_or_ge m j with h3 | h3
        · exact hgt m h1 h3
        · have : m = j := by omega
          subst this
          rw [hkD]; exact hlt
    · refine ⟨j + 1, ?_, le_rfl, fun m h1 h2 => by omega, fun _ => ?_⟩
      · simp only [scanDown, List.getElem?_eq_getElem hjlt]
        simp [hlt]
      · simp only [Nat.add_sub_cancel, hkD]
        exact not_lt.mp hlt

theorem splitChild_eq {t : Nat} {pl : Bool} {pkeys : List Int} {pchildren : List BTreeNode}
    {pn : Nat} {i : Nat} {cl : Bool} {ckeys : List Int} {cchildren : List BTreeNode} {cn : Nat}
    (h : pchildren[i]? = some (.mk cl ckeys cchildren cn)) :
    splitChild t (.mk pl pkeys pchildren pn) i =
      .mk pl (pkeys.insertIdx i (ckeys.getD (t - 1) 0))
        ((pchildren.set i
            (.mk cl (ckeys.take (t - 1)) (if cl then cchildren else cchildren.take t) (t - 1))).insertIdx
          (i + 1) (.mk cl (ckeys.drop t) (if cl then [] else cchildren.drop t) (t - 1)))
        (pn + 1) := by
  simp [splitChild, List.getD_eq_getElem?_getD, h]

theorem mem_splitChild_children {t : Nat} {pl : Bool} {pkeys : List Int}
    {pchildren : List BTreeNode} {pn : Nat} {i : Nat} {cl : Bool} {ckeys : List Int}
    {cchildren : List BTreeNode} {cn : Nat} {c : BTreeNode}
    (h : pchildren[i]? = some (.mk cl ckeys cchildren cn))
    (hmem : c ∈ (splitChild t (.mk pl pkeys pchildren pn) i).children) :
    c ∈ pchildren ∨
      c = .mk cl (ckeys.take (t - 1)) (if cl then cchildren else cchildren.take t) (t - 1) ∨
      c = .mk cl (ckeys.drop t) (if cl then [] else cchildren.drop t) (t - 1) := by
  rw [splitChild_eq h] at hmem
  simp only [BTreeNode.children] at hmem
  have hi : i < pchildren.length := (List.getElem?_eq_some_iff.mp h).1
  have hins : i + 1 ≤ (pchildren.set i
      (.mk cl (ckeys.take (t - 1)) (if cl then cchildren else cchildren.take t) (t - 1))).length := by
    simp [List.length_set]; omega
  rcases (List.mem_insertIdx hins).mp hmem with h1 | h1
  · exact Or.inr (Or.inr h1)
  · rcases List.mem_or_eq_of_mem_set h1 with h2 | h2
    · exact Or.inl h2
    · exact Or.inr (Or.inl h2)

theorem tsize_mk_child_lt {l : Bool} {keys : List Int} {children : List BTreeNode} {n : Nat}
    {c : BTreeNode} (h : c ∈ children) : tsize c < tsize (.mk l keys children n) := by
  have := tsize_le_of_mem h
  simp only [tsize]
  omega

theorem tsize_splitChild_child_lt {t : Nat} {pl : Bool} {pkeys : List Int}
    {pchildren : List BTreeNode} {pn : Nat} {i : Nat} {cl : Bool} {ckeys : List Int}
    {cchildren : List BTreeNode} {cn : Nat} {c : BTreeNode}
    (h : pchildren[i]? = some (.mk cl ckeys cchildren cn))
    (hmem : c ∈ (splitChild t (.mk pl pkeys pchildren pn) i).children) :
    tsize c < tsize (.mk pl pkeys pchildren pn) := by
  have hfc : (BTreeNode.mk cl ckeys cchildren cn) ∈ pchildren := by
    have := List.getElem?_eq_some_iff.mp h
    obtain ⟨hlt, hEq⟩ := this
    exact hEq ▸ List.getElem_mem hlt
  have hfcle : tsize (BTreeNode.mk cl ckeys cchildren cn) ≤ tsizeL pchildren :=
    tsize_le_of_mem hfc
  rcases mem_splitChild_children h hmem with h1 | h1 | h1
  · exact tsize_mk_child_lt h1
  · subst h1
    have h2 : tsizeL (if cl then cchildren else cchildren.take t) ≤ tsizeL cchildren := by
      cases cl <;> simp [tsizeL_take_le]
    simp only [tsize] at hfcle ⊢
    omega
  · subst h1
    have h2 : tsizeL (if cl then ([] : List BTreeNode) else cchildren.drop t) ≤ tsizeL cchildren := by
      cases cl <;> simp [tsizeL, tsizeL_drop_le]
    simp only [tsize] at hfcle ⊢
    omega

/-! ### In-order traversal lemmas -/

theorem mem_inorderMerge_of_mem_child {keys : List Int} {children : List BTreeNode}
    {j : Nat} {c : BTreeNode} {x : Int} (hj : children[j]? = some c) (hx : x ∈ inorder c) :
    x ∈ inorderMerge keys children := by
  induction children generalizing j keys with
  | nil => simp at hj
  | cons c0 cs ih =>
    cases j with
    | zero =>
      simp only [List.getElem?_cons_zero, Option.some_inj] at hj
      subst hj
      cases keys with
      | nil => simp [inorderMerge]; exact Or.inl hx
      | cons k ks => simp [inorderMerge]; exact Or.inl hx
    | succ j =>
      simp only [List.getElem?_cons_succ] at hj
      cases keys with
      | nil =>
        simp only [inorderMerge, List.mem_append]
        exact Or.inr (ih hj)
      | cons k ks =>
        simp only [inorderMerge, List.mem_append, List.mem_cons]
        exact Or.inr (Or.inr (ih hj))

theorem mem_keys_inorderMerge {keys : List Int} {children : List BTreeNode} {x : Int}
    (hx : x ∈ keys) : x ∈ inorderMerge keys children := by
  induction children generalizing keys with
  | nil => simpa [inorderMerge] using hx
  | cons c0 cs ih =>
    cases keys with
    | nil => simp at hx
    | cons k ks =>
      rcases List.mem_cons.mp hx with rfl | h2
      · simp [inorderMerge]
      · simp only [inorderMerge, List.mem_append, List.mem_cons]
        exact Or.inr (Or.inr (ih h2))

theorem inorderMerge_split {keys : List Int} {children : List BTreeNode} {m : Nat}
    (hm : m < keys.length) (hlen : children.length = keys.length + 1 ∨ children = []) :
    inorderMerge keys children =
      inorderMerge (keys.take m) (children.take (m + 1)) ++
        keys.getD m 0 :: inorderMerge (keys.drop (m + 1)) (children.drop (m + 1)) := by
  induction m generalizing keys children with
  | zero =>
    cases keys with
    | nil => simp at hm
    | cons k ks =>
      rcases hlen with hlen | rfl
      · cases children with
        | nil => simp at hlen
        | cons c cs =>
          simp [inorderMerge, List.getD_cons_zero]
      · simp [inorderMerge, List.getD_cons_zero]
  | succ m ih =>
    cases keys with
    | nil => simp at hm
    | cons k ks =>
      have hm' : m < ks.length := by simpa using hm
      rcases hlen with hlen | rfl
      · cases children with
        | nil => simp at hlen
        | cons c cs =>
          have hlen' : cs.length = ks.length + 1 ∨ cs = [] := by
            left; simpa using hlen
          simp only [inorderMerge, List.take_succ_cons, List.drop_succ_cons,
            List.getD_cons_succ]
          rw [ih hm' hlen']
          simp
      · simp only [inorderMerge, List.take_nil, List.drop_nil, List.getD_cons_succ,
          List.take_succ_cons, List.drop_succ_cons]
        have h3 := @ih ks [] hm' (Or.inr rfl)
        simp only [inorderMerge] at h3
        conv_lhs => rw [h3]
        simp [inorderMerge]

theorem inorderMerge_insert_set {keep fresh fc : BTreeNode} {median : Int}
    (hsplit : inorder fc = inorder keep ++ median :: inorder fresh) :
    ∀ (i : Nat) (keys : List Int) (children : List BTreeNode),
      i ≤ keys.length → children[i]? = some fc →
      inorderMerge (keys.insertIdx i median) ((children.set i keep).insertIdx (i + 1) fresh) =
        inorderMerge keys children := by
  intro i
  induction i with
  | zero =>
    intro keys children _ hc
    cases children with
    | nil => simp at hc
    | cons c0 cs =>
      simp only [List.getElem?_cons_zero, Option.some_inj] at hc
      subst hc
      cases keys with
      | nil =>
        simp only [List.insertIdx_zero, List.set_cons_zero, List.insertIdx_succ_cons,
          List.insertIdx_zero, inorderMerge]
        rw [hsplit]
        simp
      | cons k ks =>
        simp only [List.insertIdx_zero, List.set_cons_zero, List.insertIdx_succ_cons,
          List.insertIdx_zero, inorderMerge]
        rw [hsplit]
        simp
  | succ i ih =>
    intro keys children hk hc
    cases children with
    | nil => simp at hc
    | cons c0 cs =>
      simp only [List.getElem?_cons_succ] at hc
      cases keys with
      | nil => simp at hk
      | cons k ks =>
        have hk' : i ≤ ks.length := by simpa using hk
        rw [List.insertIdx_succ_cons, List.set_cons_succ, List.insertIdx_succ_cons]
        simp only [inorderMerge]
        rw [ih ks cs hk' hc]

theorem inorderMerge_set_perm {c c' : BTreeNode} {key : Int}
    (hperm : List.Perm (inorder c') (key :: inorder c)) :
    ∀ (i : Nat) (keys : List Int) (children : List BTreeNode),
      children[i]? = some c →
      List.Perm (inorderMerge keys (children.set i c')) (key :: inorderMerge keys children) := by
  intro i
  induction i with
  | zero =>
    intro keys children hc
    cases children with
    | nil => simp at hc
    | cons c0 cs =>
      simp only [List.getElem?_cons_zero, Option.some_inj] at hc
      subst hc
      cases keys with
      | nil =>
        simp only [List.set_cons_zero, inorderMerge]
        simpa using hperm.append_right (inorderMerge [] cs)
      | cons k ks =>
        simp only [List.set_cons_zero, inorderMerge]
        simpa using hperm.append_right (k :: inorderMerge ks cs)
  | succ i ih =>
    intro keys children hc
    cases children with
    | nil => simp at hc
    | cons c0 cs =>
      simp only [List.getElem?_cons_succ] at hc
      cases keys with
      | nil =>
        simp only [List.set_cons_succ, inorderMerge]
        have h1 := (ih [] cs hc).append_left (inorder c0)
        exact h1.trans List.perm_middle
      | cons k ks =>
        simp only [List.set_cons_succ, inorderMerge]
        have h1 := ((ih ks cs hc).cons k).append_left (inorder c0)
        have h2 := (List.Perm.swap key k (inorderMerge ks cs)).append_left (inorder c0)
        exact h1.trans (h2.trans List.perm_middle)

/-! ### Height lemmas -/

theorem height_mk {l : Bool} {keys : List Int} {children : List BTreeNode} {n : Nat} :
    height (.mk l keys children n) = 1 + heightL children := by
  simp [height]

theorem heightL_eq_of_all {h : Nat} {cs : List BTreeNode}
    (hall : ∀ x ∈ cs, height x = h) (hne : cs ≠ []) : heightL cs = h := by
  induction cs with
  | nil => simp at hne
  | cons c cs ih =>
    cases cs with
    | nil => simp [heightL, hall c (by simp)]
    | cons c2 cs2 =>
      have h1 : height c = h := hall c (by simp)
      have h2 : heightL (c2 :: cs2) = h := ih (fun x hx => hall x (by simp [hx])) (by simp)
      simp [heightL] at h2 ⊢
      simp [h1, h2]

theorem height_le_heightL_of_mem {c : BTreeNode} {cs : List BTreeNode} (h : c ∈ cs) :
    height c ≤ heightL cs := by
  induction cs with
  | nil => cases h
  | cons c0 cs ih =>
    rcases List.mem_cons.mp h with rfl | h2
    · simp [heightL]
    · have := ih h2
      simp only [heightL]
      omega

theorem heightL_set {cs : List BTreeNode} {i : Nat} {c c' : BTreeNode}
    (hc : cs[i]? = some c) (hh : height c' = height c) :
    heightL (cs.set i c') = heightL cs := by
  induction cs generalizing i with
  | nil => simp at hc
  | cons c0 cs ih =>
    cases i with
    | zero =>
      simp only [List.getElem?_cons_zero, Option.some_inj] at hc
      subst hc
      simp [List.set_cons_zero, heightL, hh]
    | succ i =>
      simp only [List.getElem?_cons_succ] at hc
      simp [List.set_cons_succ, heightL, ih hc]

theorem heightL_insertIdx {cs : List BTreeNode} {i : Nat} {c : BTreeNode}
    (hi : i ≤ cs.length) :
    heightL (cs.insertIdx i c) = max (height c) (heightL cs) := by
  induction cs generalizing i with
  | nil =>
    have : i = 0 := by simpa using hi
    subst this
    simp [heightL]
  | cons c0 cs ih =>
    cases i with
    | zero => simp [heightL]
    | succ i =>
      have hi' : i ≤ cs.length := by simpa using hi
      rw [List.insertIdx_succ_cons]
      simp only [heightL]
      rw [ih hi']
      omega

theorem scanGe_spec (key : Int) (keys : List Int) :
    ∀ l i, keys.drop i = l → i ≤ keys.length →
    ∃ r, scanGe key keys.length l i = some r ∧ i ≤ r ∧ r ≤ keys.length ∧
      (∀ m, i ≤ m → m < r → keys.getD m 0 < key) ∧
      (r < keys.length → key ≤ keys.getD r 0) := by
  intro l
  induction l with
  | nil =>
    intro i hdrop hle
    have : keys.length ≤ i := by
      have := congrArg List.length hdrop
      simp [List.length_drop] at this
      omega
    have hie : i = keys.length := by omega
    refine ⟨i, ?_, le_rfl, by omega, fun m h1 h2 => by omega, fun h => by omega⟩
    simp [scanGe, hie]
  | cons k ks ih =>
    intro i hdrop hle
    have hlt : i < keys.length := by
      have := congrArg List.length hdrop
      simp [List.length_drop] at this
      omega
    have hki : keys[i]? = some k := by
      have := congrArg List.head? hdrop
      simpa [List.head?_drop] using this
    have hkD : keys.getD i 0 = k := getD_of_getElem? hki
    have hdrop' : keys.drop (i + 1) = ks := by
      have := congrArg List.tail hdrop
      simpa [List.tail_drop] using this
    by_cases hgt : key > k
    · obtain ⟨r, hsc, h1, h2, h3, h4⟩ := ih (i + 1) hdrop' (by omega)
      refine ⟨r, ?_, by omega, h2, ?_, h4⟩
      · simp [scanGe, hlt, hgt, hsc]
      · intro m hm1 hm2
        rcases Nat.lt_or_ge m (i + 1) with h5 | h5
        · have : m = i := by omega
          subst this
          rw [hkD]; exact hgt
        · exact h3 m h5 hm2
    · refine ⟨i, ?_, le_rfl, by omega, fun m hm1 hm2 => by omega, fun _ => ?_⟩
      · simp [scanGe, hlt, hgt]
      · rw [hkD]; exact not_lt.mp hgt

/-! ### Characterizations of the node predicates -/

theorem wfNode_mk {t : Nat} {root l : Bool} {keys : List Int} {children : List BTreeNode}
    {n : Nat} :
    wfNode t root (.mk l keys children n) = true ↔
      (n = keys.length ∧ keys.length ≤ 2 * t - 1 ∧ (root = true ∨ t - 1 ≤ keys.length) ∧
       (l = true → children = []) ∧ (l = false → children.length = keys.length + 1) ∧
       ∀ x ∈ children, wfNode t false x = true) := by
  cases root <;> cases l <;>
    simp [wfNode, wfL_iff, List.isEmpty_iff, and_assoc]

theorem balanced_mk {l : Bool} {keys : List Int} {children : List BTreeNode} {n : Nat} :
    balanced (.mk l keys children n) = true ↔
      ((∀ x ∈ children, height x = heightL children) ∧ ∀ x ∈ children, balanced x = true) := by
  simp [balanced, allHeightEq_iff, balancedL_iff]

theorem nodeOrdered_mk {lo hi : Option Int} {l : Bool} {keys : List Int}
    {children : List BTreeNode} {n : Nat} :
    nodeOrdered lo hi (.mk l keys children n) = seqOrdered lo hi keys children := by
  simp [nodeOrdered]

theorem isFull_mk {t : Nat} (ht : 1 ≤ t) {l : Bool} {keys : List Int}
    {children : List BTreeNode} {n : Nat} :
    isFull t (.mk l keys children n) = true ↔ n = 2 * t - 1 := by
  simp only [isFull, BTreeNode.n_keys, beq_iff_eq]
  omega

theorem isFull_mk_false {t : Nat} (ht : 1 ≤ t) {l : Bool} {keys : List Int}
    {children : List BTreeNode} {n : Nat} :
    isFull t (.mk l keys children n) = false ↔ n ≠ 2 * t - 1 := by
  rw [← Bool.not_eq_true, isFull_mk ht]

/-! ### The two halves produced by a split of a full child -/

theorem splitChild_parts {t : Nat} (ht : 2 ≤ t) {cl : Bool} {ckeys : List Int}
    {cchildren : List BTreeNode} {cn : Nat}
    (hwf : wfNode t false (.mk cl ckeys cchildren cn) = true)
    (hbal : balanced (.mk cl ckeys cchildren cn) = true)
    (hfull : cn = 2 * t - 1) :
    wfNode t false
        (.mk cl (ckeys.take (t - 1)) (if cl then cchildren else cchildren.take t) (t - 1)) = true ∧
    wfNode t false
        (.mk cl (ckeys.drop t) (if cl then [] else cchildren.drop t) (t - 1)) = true ∧
    inorder (.mk cl ckeys cchildren cn) =
      inorder (.mk cl (ckeys.take (t - 1)) (if cl then cchildren else cchildren.take t) (t - 1)) ++
        ckeys.getD (t - 1) 0 ::
          inorder (.mk cl (ckeys.drop t) (if cl then [] else cchildren.drop t) (t - 1)) ∧
    height (.mk cl (ckeys.take (t - 1)) (if cl then cchildren else cchildren.take t) (t - 1)) =
      height (.mk cl ckeys cchildren cn) ∧
    height (.mk cl (ckeys.drop t) (if cl then [] else cchildren.drop t) (t - 1)) =
      height (.mk cl ckeys cchildren cn) ∧
    balanced
        (.mk cl (ckeys.take (t - 1)) (if cl then cchildren else cchildren.take t) (t - 1)) = true ∧
    balanced (.mk cl (ckeys.drop t) (if cl then [] else cchildren.drop t) (t - 1)) = true := by
  obtain ⟨hn, hmax, -, hleaf, hint, hch⟩ := wfNode_mk.mp hwf
  obtain ⟨hbh, hbc⟩ := balanced_mk.mp hbal
  have hklen : ckeys.length = 2 * t - 1 := by omega
  have htake : (ckeys.take (t - 1)).length = t - 1 := by
    simp [List.length_take]; omega
  have hdrop : (ckeys.drop t).length = t - 1 := by
    simp [List.length_drop]; omega
  have hmerge : inorder (.mk cl ckeys cchildren cn) =
      inorder (.mk cl (ckeys.take (t - 1)) (if cl then cchildren else cchildren.take t) (t - 1)) ++
        ckeys.getD (t - 1) 0 ::
          inorder (.mk cl (ckeys.drop t) (if cl then [] else cchildren.drop t) (t - 1)) := by
    cases cl with
    | true =>
      have hce : cchildren = [] := hleaf rfl
      subst hce
      simp only [inorder, if_true]
      have := @inorderMerge_split ckeys ([] : List BTreeNode) (t - 1) (by omega) (Or.inr rfl)
      simpa [show t - 1 + 1 = t by omega] using this
    | false =>
      have hcl : cchildren.length = ckeys.length + 1 := hint rfl
      simp only [inorder, if_false, Bool.false_eq_true]
      have := @inorderMerge_split ckeys cchildren (t - 1) (by omega) (Or.inl hcl)
      simpa [show t - 1 + 1 = t by omega] using this
  refine ⟨?_, ?_, hmerge, ?_, ?_, ?_, ?_⟩
  · rw [wfNode_mk]
    refine ⟨htake.symm, by omega, Or.inr (by omega), ?_, ?_, ?_⟩
    · intro hl; simp [hl, hleaf hl]
    · intro hl
      have hcl : cchildren.length = ckeys.length + 1 := hint hl
      simp [hl, List.length_take]
      omega
    · intro x hx
      cases cl with
      | true => exact hch x (by simpa using hx)
      | false =>
        simp only [if_false, Bool.false_eq_true] at hx
        exact hch x (List.mem_of_mem_take hx)
  · rw [wfNode_mk]
    refine ⟨hdrop.symm, by omega, Or.inr (by omega), ?_, ?_, ?_⟩
    · intro hl; simp [hl]
    · intro hl
      have hcl : cchildren.length = ckeys.length + 1 := hint hl
      simp [hl, List.length_drop]
      omega
    · intro x hx
      cases cl with
      | true => simp at hx
      | false =>
        simp only [if_false, Bool.false_eq_true] at hx
        exact hch x (List.mem_of_mem_drop hx)
  · cases cl with
    | true => simp [height_mk]
    | false =>
      have hcl : cchildren.length = ckeys.length + 1 := hint rfl
      simp only [if_false, Bool.false_eq_true, height_mk]
      have hne : cchildren.take t ≠ [] := by
        intro hEq
        rcases List.take_eq_nil_iff.mp hEq with h | h
        · omega
        · rw [h] at hcl; simp at hcl
      have := heightL_eq_of_all
        (fun x hx => hbh x (List.mem_of_mem_take hx)) hne
      rw [this]
  · cases cl with
    | true =>
      have hce : cchildren = [] := hleaf rfl
      subst hce
      simp [height_mk]
    | false =>
      have hcl : cchildren.length = ckeys.length + 1 := hint rfl
      simp only [if_false, Bool.false_eq_true, height_mk]
      have hne : cchildren.drop t ≠ [] := by
        intro hEq
        have := congrArg List.length hEq
        simp [List.length_drop] at this
        omega
      have := heightL_eq_of_all
        (fun x hx => hbh x (List.mem_of_mem_drop hx)) hne
      rw [this]
  · rw [balanced_mk]
    cases cl with
    | true =>
      have hce : cchildren = [] := hleaf rfl
      subst hce
      simp
    | false =>
      simp only [if_false, Bool.false_eq_true]
      constructor
      · intro x hx
        have h1 : height x = heightL cchildren := hbh x (List.mem_of_mem_take hx)
        have hcl : cchildren.length = ckeys.length + 1 := hint rfl
        have hne : cchildren.take t ≠ [] := by
          intro hEq
          rcases List.take_eq_nil_iff.mp hEq with h | h
          · omega
          · rw [h] at hcl; simp at hcl
        rw [h1, heightL_eq_of_all (fun y hy => hbh y (List.mem_of_mem_take hy)) hne]
      · exact fun x hx => hbc x (List.mem_of_mem_take hx)
  · rw [balanced_mk]
    cases cl with
    | true => simp
    | false =>
      simp only [if_false, Bool.false_eq_true]
      constructor
      · intro x hx
        have h1 : height x = heightL cchildren := hbh x (List.mem_of_mem_drop hx)
        have hcl : cchildren.length = ckeys.length + 1 := hint rfl
        have hne : cchildren.drop t ≠ [] := by
          intro hEq
          have := congrArg List.length hEq
          simp [List.length_drop] at this
          omega
        rw [h1, heightL_eq_of_all (fun y hy => hbh y (List.mem_of_mem_drop hy)) hne]
      · exact fun x hx => hbc x (List.mem_of_mem_drop hx)

/-! ### The structural master theorem for `_insert_non_full` -/

theorem insertNonFull_master {t : Nat} (ht : 2 ≤ t) (key : Int) :
    ∀ (fuel : Nat) (node : BTreeNode) (root : Bool),
      tsize node ≤ fuel →
      wfNode t root node = true →
      isFull t node = false →
      balanced node = true →
      ∃ node', insertNonFull t key fuel node = some node' ∧
        wfNode t root node' = true ∧
        node.n_keys ≤ node'.n_keys ∧ node'.n_keys ≤ node.n_keys + 1 ∧
        height node' = height node ∧
        balanced node' = true ∧
        List.Perm (inorder node') (key :: inorder node) ∧
        node'.is_leaf = node.is_leaf := by
  intro fuel
  induction fuel with
  | zero =>
    intro node root hts _ _ _
    exact absurd hts (by have := tsize_pos node; omega)
  | succ fuel ih =>
    intro node root hts hwf hnf hbal
    cases node with
    | mk l keys children n =>
    cases l with
    | true =>
      obtain ⟨hn, hmax, hmin, hleaf, -, -⟩ := wfNode_mk.mp hwf
      have hce : children = [] := hleaf rfl
      subst hce
      have hnfull : n ≠ 2 * t - 1 := (isFull_mk_false (by omega)).mp hnf
      obtain ⟨pos, hsc, hple, -, -⟩ := @scanDown_spec keys key n (by omega)
      refine ⟨.mk true (keys.insertIdx pos key) [] (n + 1), ?_, ?_, ?_, ?_, ?_, ?_, ?_, ?_⟩
      · simp [insertNonFull, hsc]
      · rw [wfNode_mk]
        have hlen : (keys.insertIdx pos key).length = keys.length + 1 :=
          List.length_insertIdx pos keys (by omega)
        refine ⟨by omega, by omega, ?_, fun _ => rfl, by simp, by simp⟩
        rcases hmin with h | h
        · exact Or.inl h
        · exact Or.inr (by omega)
      · simp [BTreeNode.n_keys]
      · simp [BTreeNode.n_keys]
      · simp [height_mk]
      · rw [balanced_mk]; simp
      · simp only [inorder, inorderMerge]
        exact List.perm_insertIdx key keys (by omega)
      · rfl
    | false =>
      obtain ⟨hn, hmax, hmin, -, hint, hch⟩ := wfNode_mk.mp hwf
      have hcl : children.length = keys.length + 1 := hint rfl
      obtain ⟨hbh, hbc⟩ := balanced_mk.mp hbal
      have hnfull : n ≠ 2 * t - 1 := (isFull_mk_false (by omega)).mp hnf
      have htsL : tsizeL children ≤ fuel := by
        simp only [tsize] at hts; omega
      obtain ⟨i0, hsc, hi0le, hFgt, hFle⟩ := @scanDown_spec keys key n (by omega)
      have hi0lt : i0 < children.length := by omega
      have hc0 : children[i0]? = some children[i0] := List.getElem?_eq_getElem hi0lt
      have hgetD : children.getD i0 default = children[i0] := getD_of_getElem? hc0
      have hc0mem : children[i0] ∈ children := List.getElem_mem hi0lt
      by_cases hful : isFull t (children.getD i0 default) = true
      · -- the child is full: split it first, then descend
        rcases hfc : children[i0] with ⟨cl, ckeys, cchildren, cn⟩
        have hc0m : children[i0]? = some (.mk cl ckeys cchildren cn) := by
          rw [hc0, hfc]
        have hcwf : wfNode t false (.mk cl ckeys cchildren cn) = true := by
          rw [← hfc]; exact hch _ hc0mem
        have hcbal : balanced (.mk cl ckeys cchildren cn) = true := by
          rw [← hfc]; exact hbc _ hc0mem
        have hcn : cn = 2 * t - 1 := by
          rw [hgetD, hfc] at hful
          exact (isFull_mk (by omega)).mp hful
        have hck : ckeys.length = 2 * t - 1 := by
          obtain ⟨h1, -, -, -, -, -⟩ := wfNode_mk.mp hcwf
          omega
        obtain ⟨hkeepwf, hfreshwf, hsplito, hkeeph, hfreshh, hkeepb, hfreshb⟩ :=
          splitChild_parts ht hcwf hcbal hcn
        set median := ckeys.getD (t - 1) 0 with hmedian
        set keep : BTreeNode :=
          .mk cl (ckeys.take (t - 1)) (if cl then cchildren else cchildren.take t) (t - 1)
          with hkeep
        set fresh : BTreeNode :=
          .mk cl (ckeys.drop t) (if cl then [] else cchildren.drop t) (t - 1) with hfresh
        have hpeq : splitChild t (.mk false keys children n) i0 =
            .mk false (keys.insertIdx i0 median)
              ((children.set i0 keep).insertIdx (i0 + 1) fresh) (n + 1) :=
          splitChild_eq hc0m
        set pkeys := keys.insertIdx i0 median with hpkeys
        set pchildren := (children.set i0 keep).insertIdx (i0 + 1) fresh with hpchildren
        have hi0k : i0 ≤ keys.length := by omega
        have hpklen : pkeys.length = keys.length + 1 :=
          List.length_insertIdx i0 keys hi0k
        have hsetlen : (children.set i0 keep).length = children.length := children.length_set i0 keep
        have hpclen : pchildren.length = children.length + 1 := by
          rw [hpchildren, List.length_insertIdx (i0 + 1) _ (by rw [hsetlen]; omega), hsetlen]
        have hpkD : pkeys.getD i0 0 = median := by
          rw [hpkeys]
          apply getD_of_getElem?
          rw [List.getElem?_eq_some_iff]
          exact ⟨by rw [List.length_insertIdx i0 keys hi0k]; omega,
            List.getElem_insertIdx_self keys median i0 hi0k⟩
        have hkeepat : pchildren[i0]? = some keep := by
          rw [hpchildren]
          have h1 : (children.set i0 keep)[i0]? = some keep := by
            rw [List.getElem?_set]
            simp [hi0lt]
          have h2 := List.getElem_insertIdx_of_lt (children.set i0 keep) fresh (i0 + 1) i0
            (by omega) (by omega)
          rw [List.getElem?_eq_some_iff]
          refine ⟨by rw [List.length_insertIdx (i0 + 1) _ (by rw [hsetlen]; omega), hsetlen]; omega, ?_⟩
          rw [h2]
          have := List.getElem?_eq_some_iff.mp h1
          exact this.2
        have hfreshat : pchildren[i0 + 1]? = some fresh := by
          rw [hpchildren]
          have := List.getElem_insertIdx_self (children.set i0 keep) fresh (i0 + 1)
            (by rw [hsetlen]; omega)
          rw [List.getElem?_eq_some_iff]
          exact ⟨by rw [List.length_insertIdx (i0 + 1) _ (by rw [hsetlen]; omega), hsetlen]; omega,
            this⟩
        have hinp : inorderMerge pkeys pchildren = inorderMerge keys children := by
          rw [hpkeys, hpchildren]
          exact inorderMerge_insert_set (by simpa using hsplito) i0 keys children hi0k hc0m
        -- facts about every member of the new child list
        have hmemP : ∀ x ∈ pchildren, x ∈ children ∨ x = keep ∨ x = fresh := by
          intro x hx
          rw [hpchildren] at hx
          rcases (List.mem_insertIdx (by omega)).mp hx with h | h
          · exact Or.inr (Or.inr h)
          · rcases List.mem_or_eq_of_mem_set h with h2 | h2
            · exact Or.inl h2
            · exact Or.inr (Or.inl h2)
        have hkeephL : height keep = heightL children := by
          rw [hkeeph, ← hfc]
          exact hbh _ hc0mem
        have hfreshhL : height fresh = heightL children := by
          rw [hfreshh, ← hfc]
          exact hbh _ hc0mem
        have hPheights : ∀ x ∈ pchildren, height x = heightL children := by
          intro x hx
          rcases hmemP x hx with h | h | h
          · exact hbh x h
          · rw [h]; exact hkeephL
          · rw [h]; exact hfreshhL
        have hPwf : ∀ x ∈ pchildren, wfNode t false x = true := by
          intro x hx
          rcases hmemP x hx with h | h | h
          · exact hch x h
          · rw [h]; exact hkeepwf
          · rw [h]; exact hfreshwf
        have hPbal : ∀ x ∈ pchildren, balanced x = true := by
          intro x hx
          rcases hmemP x hx with h | h | h
          · exact hbc x h
          · rw [h]; exact hkeepb
          · rw [h]; exact hfreshb
        have hPhL : heightL pchildren = heightL children := by
          rcases hP : pchildren with _ | ⟨p0, ps⟩
          · rw [hP] at hpclen; simp at hpclen
          · rw [← hP]
            exact heightL_eq_of_all hPheights (by rw [hP]; simp)
        -- the child we descend into
        set i1 := if key > median then i0 + 1 else i0 with hi1
        set cnext : BTreeNode := if key > median then fresh else keep with hcnext
        have hcnextat : pchildren[i1]? = some cnext := by
          rw [hi1, hcnext]
          by_cases hgt : key > median
          · simp only [if_pos hgt]; exact hfreshat
          · simp only [if_neg hgt]; exact hkeepat
        have hcnextwf : wfNode t false cnext = true := by
          rw [hcnext]; by_cases hgt : key > median
          · simp only [if_pos hgt]; exact hfreshwf
          · simp only [if_neg hgt]; exact hkeepwf
        have hcnextbal : balanced cnext = true := by
          rw [hcnext]; by_cases hgt : key > median
          · simp only [if_pos hgt]; exact hfreshb
          · simp only [if_neg hgt]; exact hkeepb
        have hcnextnf : isFull t cnext = false := by
          rw [hcnext]
          by_cases hgt : key > median
          · simp only [if_pos hgt, hfresh]
            exact (isFull_mk_false (by omega)).mpr (by omega)
          · simp only [if_neg hgt, hkeep]
            exact (isFull_mk_false (by omega)).mpr (by omega)
        have hcnextts : tsize cnext ≤ fuel := by
          have hmem : cnext ∈ (splitChild t (.mk false keys children n) i0).children := by
            rw [hpeq]
            simp only [BTreeNode.children]
            have := List.getElem?_eq_some_iff.mp hcnextat
            exact this.2 ▸ List.getElem_mem this.1
          have := tsize_splitChild_child_lt hc0m hmem
          simp only [tsize] at this
          omega
        obtain ⟨c', hc'eq, hc'wf, hc'n1, hc'n2, hc'h, hc'bal, hc'perm, -⟩ :=
          ih cnext false hcnextts hcnextwf hcnextnf hcnextbal
        refine ⟨.mk false pkeys (pchildren.set i1 c') (n + 1), ?_, ?_, ?_, ?_, ?_, ?_, ?_, ?_⟩
        · simp only [insertNonFull, hsc]
          rw [if_pos hful, hpeq]
          simp only [BTreeNode.keys, BTreeNode.children, BTreeNode.is_leaf, BTreeNode.n_keys,
            hpkD, ← hi1, hcnextat, hc'eq]
        · rw [wfNode_mk]
          have hc'keys : cnext.n_keys = t - 1 := by
            rw [hcnext]; by_cases hgt : key > median
            · simp only [if_pos hgt, hfresh, BTreeNode.n_keys]
            · simp only [if_neg hgt, hkeep, BTreeNode.n_keys]
          refine ⟨by omega, by omega, ?_, by simp, ?_, ?_⟩
          · rcases hmin with h | h
            · exact Or.inl h
            · exact Or.inr (by omega)
          · intro _
            rw [List.length_set]
            omega
          · intro x hx
            rcases List.mem_or_eq_of_mem_set hx with h | h
            · exact hPwf x h
            · rw [h]; exact hc'wf
        · simp [BTreeNode.n_keys]
        · simp [BTreeNode.n_keys]
        · rw [height_mk, height_mk]
          rw [heightL_set hcnextat (by rw [hc'h]), hPhL]
        · rw [balanced_mk]
          have hsetH : heightL (pchildren.set i1 c') = heightL pchildren := by
            exact heightL_set hcnextat (by rw [hc'h])
          constructor
          · intro x hx
            rw [hsetH, hPhL]
            rcases List.mem_or_eq_of_mem_set hx with h | h
            · exact hPheights x h
            · rw [h, hc'h]
              rw [hcnext]; by_cases hgt : key > median
              · simp only [if_pos hgt]; exact hfreshhL
              · simp only [if_neg hgt]; exact hkeephL
          · intro x hx
            rcases List.mem_or_eq_of_mem_set hx with h | h
            · exact hPbal x h
            · rw [h]; exact hc'bal
        · simp only [inorder]
          have h1 := inorderMerge_set_perm hc'perm i1 pkeys pchildren hcnextat
          rw [hinp] at h1
          exact h1
        · rfl
      · -- the child is not full: descend directly
        have hnful : isFull t children[i0] = false := by
          rw [← hgetD]
          exact Bool.not_eq_true _ ▸ hful
        have hcwf := hch _ hc0mem
        have hcbal := hbc _ hc0mem
        have hcts : tsize children[i0] ≤ fuel := by
          have := tsize_le_of_mem hc0mem
          omega
        obtain ⟨c', hc'eq, hc'wf, hc'n1, hc'n2, hc'h, hc'bal, hc'perm, -⟩ :=
          ih children[i0] false hcts hcwf hnful hcbal
        refine ⟨.mk false keys (children.set i0 c') n, ?_, ?_, ?_, ?_, ?_, ?_, ?_, ?_⟩
        · simp only [insertNonFull, hsc]
          rw [if_neg hful]
          simp only [BTreeNode.keys, BTreeNode.children, BTreeNode.is_leaf, BTreeNode.n_keys,
            hc0, hc'eq]
        · rw [wfNode_mk]
          refine ⟨by omega, by omega, hmin, by simp, ?_, ?_⟩
          · intro _
            rw [List.length_set]
            omega
          · intro x hx
            rcases List.mem_or_eq_of_mem_set hx with h | h
            · exact hch x h
            · rw [h]; exact hc'wf
        · simp [BTreeNode.n_keys]
        · simp [BTreeNode.n_keys]
        · rw [height_mk, height_mk, heightL_set hc0 (by rw [hc'h])]
        · rw [balanced_mk]
          have hsetH : heightL (children.set i0 c') = heightL children :=
            heightL_set hc0 (by rw [hc'h])
          constructor
          · intro x hx
            rw [hsetH]
            rcases List.mem_or_eq_of_mem_set hx with h | h
            · exact hbh x h
            · rw [h, hc'h]
              exact hbh _ hc0mem
          · intro x hx
            rcases List.mem_or_eq_of_mem_set hx with h | h
            · exact hbc x h
            · rw [h]; exact hc'bal
        · simp only [inorder]
          exact inorderMerge_set_perm hc'perm i0 keys children hc0
        · rfl

/-! ### Structural facts for `insert`, `insertMany` and `buildTree` -/

theorem insert_master {tr : BTree} (ht : 2 ≤ tr.t)
    (hwf : wfNode tr.t true tr.root = true) (hbal : balanced tr.root = true) (key : Int) :
    ∃ tr', tr.insert key = some tr' ∧ tr'.t = tr.t ∧
      wfNode tr.t true tr'.root = true ∧ balanced tr'.root = true ∧
      List.Perm (inorder tr'.root) (key :: inorder tr.root) ∧
      height tr'.root = height tr.root + (if isFull tr.t tr.root then 1 else 0) := by
  by_cases hful : isFull tr.t tr.root = true
  · rcases hroot : tr.root with ⟨l, keys, children, n⟩
    rw [hroot] at hwf hbal hful
    have hn : n = 2 * tr.t - 1 := (isFull_mk (by omega)).mp hful
    have hwff : wfNode tr.t false (.mk l keys children n) = true := by
      obtain ⟨h1, h2, -, h4, h5, h6⟩ := wfNode_mk.mp hwf
      exact wfNode_mk.mpr ⟨h1, h2, Or.inr (by omega), h4, h5, h6⟩
    obtain ⟨hkeepwf, hfreshwf, hsplito, hkeeph, hfreshh, hkeepb, hfreshb⟩ :=
      splitChild_parts ht hwff hbal hn
    set median := keys.getD (tr.t - 1) 0 with hmedian
    set keep : BTreeNode :=
      .mk l (keys.take (tr.t - 1)) (if l then children else children.take tr.t) (tr.t - 1)
      with hkeep
    set fresh : BTreeNode :=
      .mk l (keys.drop tr.t) (if l then [] else children.drop tr.t) (tr.t - 1) with hfresh
    have h0 : (List.insertIdx 0 (BTreeNode.mk l keys children n) [])[0]? =
        some (.mk l keys children n) := by simp
    have hs2 : splitChild tr.t (.mk false [] (List.insertIdx 0 (.mk l keys children n) []) 0) 0 =
        .mk false [median] [keep, fresh] 1 := by
      rw [splitChild_eq h0]
      simp [hmedian, List.getD_eq_getElem?_getD]
    have hs2wf : wfNode tr.t true (.mk false [median] [keep, fresh] 1) = true := by
      rw [wfNode_mk]
      refine ⟨by simp, by simp; omega, Or.inl rfl, by simp, by simp, ?_⟩
      intro x hx
      rcases List.mem_cons.mp hx with rfl | hx2
      · exact hkeepwf
      · rcases List.mem_cons.mp hx2 with rfl | hx3
        · exact hfreshwf
        · cases hx3
    have hs2nf : isFull tr.t (.mk false [median] [keep, fresh] 1) = false :=
      (isFull_mk_false (by omega)).mpr (by omega)
    have hs2bal : balanced (.mk false [median] [keep, fresh] 1) = true := by
      rw [balanced_mk]
      have hH : heightL [keep, fresh] = height (.mk l keys children n) := by
        simp only [heightL]
        omega
      constructor
      · intro x hx
        rw [hH]
        rcases List.mem_cons.mp hx with rfl | hx2
        · exact hkeeph
        · rcases List.mem_cons.mp hx2 with rfl | hx3
          · exact hfreshh
          · cases hx3
      · intro x hx
        rcases List.mem_cons.mp hx with rfl | hx2
        · exact hkeepb
        · rcases List.mem_cons.mp hx2 with rfl | hx3
          · exact hfreshb
          · cases hx3
    obtain ⟨r, hreq, hrwf, -, -, hrh, hrbal, hrperm, -⟩ :=
      insertNonFull_master ht key (tsize (.mk false [median] [keep, fresh] 1))
        (.mk false [median] [keep, fresh] 1) true le_rfl hs2wf hs2nf hs2bal
    refine ⟨⟨tr.t, r⟩, ?_, rfl, hrwf, hrbal, ?_, ?_⟩
    · simp only [BTree.insert, hroot, hful, if_true]
      rw [hs2, hreq]
    · have hio : inorder (.mk false [median] [keep, fresh] 1) =
          inorder (.mk l keys children n) := by
        rw [hsplito]
        simp [inorder, inorderMerge]
      rw [hio] at hrperm
      simpa using hrperm
    · have hH : heightL [keep, fresh] = height (.mk l keys children n) := by
        simp only [heightL]
        omega
      rw [if_pos hful]
      simp only [BTree.root] at hrh ⊢
      rw [hrh, height_mk, hH]
      omega
  · have hnf : isFull tr.t tr.root = false := by
      rw [Bool.not_eq_true] at hful
      exact hful
    obtain ⟨r, hreq, hrwf, -, -, hrh, hrbal, hrperm, -⟩ :=
      insertNonFull_master ht key (tsize tr.root) tr.root true le_rfl hwf hnf hbal
    refine ⟨⟨tr.t, r⟩, ?_, rfl, hrwf, hrbal, hrperm, ?_⟩
    · rw [BTree.insert, if_neg hful, hreq]
    · simp [BTree.root, hrh, hnf]

theorem insertMany_master :
    ∀ (ks : List Int) (tr : BTree), 2 ≤ tr.t →
    wfNode tr.t true tr.root = true → balanced tr.root = true →
    ∃ tr', tr.insertMany ks = some tr' ∧ tr'.t = tr.t ∧
      wfNode tr.t true tr'.root = true ∧ balanced tr'.root = true ∧
      List.Perm (inorder tr'.root) (ks ++ inorder tr.root) := by
  intro ks
  induction ks with
  | nil =>
    intro tr ht hwf hbal
    exact ⟨tr, rfl, rfl, hwf, hbal, by simp⟩
  | cons k ks ih =>
    intro tr ht hwf hbal
    obtain ⟨tr1, h1eq, h1t, h1wf, h1bal, h1perm, -⟩ := insert_master ht hwf hbal k
    have h1wf2 : wfNode tr1.t true tr1.root = true := by rw [h1t]; exact h1wf
    obtain ⟨tr2, h2eq, h2t, h2wf, h2bal, h2perm⟩ := ih tr1 (by omega) h1wf2 h1bal
    refine ⟨tr2, ?_, by omega, ?_, h2bal, ?_⟩
    · simp only [BTree.insertMany, h1eq, h2eq]
    · rw [← h1t]; exact h2wf
    · have hstep := h1perm.append_left ks
      exact h2perm.trans (hstep.trans List.perm_middle)

theorem buildTree_master {t : Nat} (ht : 2 ≤ t) (ks : List Int) :
    ∃ tr, buildTree t ks = some tr ∧ tr.t = t ∧ wfNode t true tr.root = true ∧
      balanced tr.root = true ∧ List.Perm (inorder tr.root) ks := by
  have hwf : wfNode t true (BTree.new t).root = true := by
    show wfNode t true (.mk true [] [] 0) = true
    rw [wfNode_mk]
    refine ⟨rfl, by simp, Or.inl rfl, fun _ => rfl, by simp, by simp⟩
  have hbal : balanced (BTree.new t).root = true := by
    show balanced (.mk true [] [] 0) = true
    rw [balanced_mk]
    simp
  obtain ⟨tr, heq, htt, hwf', hbal', hperm⟩ :=
    insertMany_master ks (BTree.new t) ht hwf hbal
  refine ⟨tr, heq, htt, hwf', hbal', ?_⟩
  simpa [BTree.new, BTreeNode.new, inorder, inorderMerge] using hperm

/-! ### Claim-shaped consequences of well-formedness -/

theorem bkOk_mk {l : Bool} {keys : List Int} {children : List BTreeNode} {n : Nat} :
    bkOk (.mk l keys children n) = true ↔
      (n = keys.length ∧ (l = true → children = []) ∧
       (l = false → children.length = n + 1) ∧ ∀ x ∈ children, bkOk x = true) := by
  cases l <;> simp [bkOk, bkOkL_iff, List.isEmpty_iff, and_assoc]

theorem countsOk_mk {t : Nat} {root l : Bool} {keys : List Int} {children : List BTreeNode}
    {n : Nat} :
    countsOk t root (.mk l keys children n) = true ↔
      ((root = true ∨ (t - 1 ≤ keys.length ∧ keys.length ≤ 2 * t - 1)) ∧
       (l = true → children = []) ∧ (l = false → children.length = keys.length + 1) ∧
       ∀ x ∈ children, countsOk t false x = true) := by
  cases root <;> cases l <;>
    simp [countsOk, countsOkL_iff, List.isEmpty_iff, and_assoc]

theorem bkOk_of_wf {t : Nat} : ∀ node, ∀ root, wfNode t root node = true → bkOk node = true := by
  intro node
  induction node using node_ind with
  | h l keys children n ih =>
    intro root hwf
    obtain ⟨h1, -, -, h4, h5, h6⟩ := wfNode_mk.mp hwf
    rw [bkOk_mk]
    exact ⟨h1, h4, fun hl => by rw [h5 hl]; omega, fun x hx => ih x hx false (h6 x hx)⟩

theorem countsOk_of_wf {t : Nat} :
    ∀ node, ∀ root, wfNode t root node = true → countsOk t root node = true := by
  intro node
  induction node using node_ind with
  | h l keys children n ih =>
    intro root hwf
    obtain ⟨-, h2, h3, h4, h5, h6⟩ := wfNode_mk.mp hwf
    rw [countsOk_mk]
    refine ⟨?_, h4, h5, fun x hx => ih x hx false (h6 x hx)⟩
    rcases h3 with h | h
    · exact Or.inl h
    · exact Or.inr ⟨h, h2⟩

theorem mem_leafDepthsL {cs : List BTreeNode} {d : Nat} :
    d ∈ leafDepthsL cs ↔ ∃ c ∈ cs, ∃ d2, d2 ∈ leafDepths c ∧ d = d2 + 1 := by
  induction cs with
  | nil => simp [leafDepthsL]
  | cons c cs ih =>
    simp only [leafDepthsL, List.mem_append, List.mem_map, ih]
    constructor
    · rintro (⟨d2, hd2, rfl⟩ | ⟨c2, hc2, d2, hd2, rfl⟩)
      · exact ⟨c, by simp, d2, hd2, rfl⟩
      · exact ⟨c2, by simp [hc2], d2, hd2, rfl⟩
    · rintro ⟨c2, hc2, d2, hd2, rfl⟩
      rcases List.mem_cons.mp hc2 with rfl | hc3
      · exact Or.inl ⟨d2, hd2, rfl⟩
      · exact Or.inr ⟨c2, hc3, d2, hd2, rfl⟩

theorem leafDepths_of_balanced :
    ∀ node, balanced node = true → ∀ d ∈ leafDepths node, d + 1 = height node := by
  intro node
  induction node using node_ind with
  | h l keys children n ih =>
    intro hbal d hd
    obtain ⟨hbh, hbc⟩ := balanced_mk.mp hbal
    rcases children with _ | ⟨c0, cs⟩
    · simp only [leafDepths] at hd
      have : d = 0 := by simpa using hd
      subst this
      rw [height_mk]
      simp [heightL]
    · simp only [leafDepths] at hd
      obtain ⟨c, hc, d2, hd3, hdeq⟩ := mem_leafDepthsL.mp hd
      subst hdeq
      have h1 : d2 + 1 = height c := ih c hc (hbc c hc) d2 hd3
      have h2 : height c = heightL (c0 :: cs) := hbh c hc
      rw [height_mk]
      omega

theorem allEqNat_of_all {ds : List Nat} {v : Nat} (h : ∀ d ∈ ds, d = v) :
    allEqNat ds = true := by
  cases ds with
  | nil => rfl
  | cons d ds =>
    simp only [allEqNat, List.all_eq_true]
    intro x hx
    have h1 := h x (by simp [hx])
    have h2 := h d (by simp)
    simp [h1, h2]

theorem equalLeafDepth_of_balanced {node : BTreeNode} (h : balanced node = true) :
    equalLeafDepth node = true := by
  rw [equalLeafDepth]
  exact allEqNat_of_all (v := height node - 1) (fun d hd => by
    have := leafDepths_of_balanced node h d hd
    omega)

/-! ### Claim C4: behaviour of `_split_child` -/

/-- C4: for a parent whose `i`-th child holds exactly `2t-1` keys, `_split_child`
promotes the key at position `t-1` as the median: the child retains exactly its
first `t-1` keys, the new sibling receives exactly the last `t-1` keys, an
internal child keeps its first `t` children while the last `t` move to the
sibling, the median is inserted into the parent's keys at index `i`, the sibling
into the parent's children at index `i+1`, and the parent's key count grows by
exactly one. -/
theorem C4_splitChild_behavior {t : Nat} (ht : 2 ≤ t) {pl cl : Bool} {pkeys ckeys : List Int}
    {pchildren cchildren : List BTreeNode} {pn cn i : Nat}
    (hc : pchildren[i]? = some (.mk cl ckeys cchildren cn))
    (hkeys : ckeys.length = 2 * t - 1)
    (hik : i ≤ pkeys.length)
    (hcc : cl = false → cchildren.length = 2 * t) :
    ∃ keep fresh : BTreeNode,
      splitChild t (.mk pl pkeys pchildren pn) i =
        .mk pl (pkeys.insertIdx i (ckeys.getD (t - 1) 0))
          ((pchildren.set i keep).insertIdx (i + 1) fresh) (pn + 1) ∧
      keep.keys = ckeys.take (t - 1) ∧ keep.keys.length = t - 1 ∧
      fresh.keys = ckeys.drop t ∧ fresh.keys.length = t - 1 ∧
      (cl = false → keep.children = cchildren.take t ∧ keep.children.length = t ∧
        fresh.children = cchildren.drop t ∧ fresh.children.length = t) ∧
      (cl = true → keep.children = cchildren ∧ fresh.children = []) ∧
      (pkeys.insertIdx i (ckeys.getD (t - 1) 0))[i]? = some (ckeys.getD (t - 1) 0) ∧
      (pkeys.insertIdx i (ckeys.getD (t - 1) 0)).length = pkeys.length + 1 ∧
      ((pchildren.set i keep).insertIdx (i + 1) fresh).length = pchildren.length + 1 ∧
      (splitChild t (.mk pl pkeys pchildren pn) i).n_keys = pn + 1 := by
  have hilt : i < pchildren.length := (List.getElem?_eq_some_iff.mp hc).1
  have hsetlen : (pchildren.set i
      (.mk cl (ckeys.take (t - 1)) (if cl then cchildren else cchildren.take t) (t - 1))).length =
      pchildren.length := List.length_set pchildren i _
  refine ⟨.mk cl (ckeys.take (t - 1)) (if cl then cchildren else cchildren.take t) (t - 1),
    .mk cl (ckeys.drop t) (if cl then [] else cchildren.drop t) (t - 1),
    splitChild_eq hc, ?_, ?_, ?_, ?_, ?_, ?_, ?_, ?_, ?_, ?_⟩
  · simp [BTreeNode.keys]
  · simp [BTreeNode.keys, List.length_take]
    omega
  · simp [BTreeNode.keys]
  · simp [BTreeNode.keys, List.length_drop]
    omega
  · intro hl
    subst hl
    refine ⟨by simp [BTreeNode.children], ?_, by simp [BTreeNode.children], ?_⟩
    · simp [BTreeNode.children, List.length_take]
      have := hcc rfl
      omega
    · simp [BTreeNode.children, List.length_drop]
      have := hcc rfl
      omega
  · intro hl
    subst hl
    exact ⟨by simp [BTreeNode.children], by simp [BTreeNode.children]⟩
  · rw [List.getElem?_eq_some_iff]
    exact ⟨by rw [List.length_insertIdx i pkeys hik]; omega,
      List.getElem_insertIdx_self pkeys (ckeys.getD (t - 1) 0) i hik⟩
  · exact List.length_insertIdx i pkeys hik
  · rw [List.length_insertIdx (i + 1) _ (by rw [hsetlen]; omega), hsetlen]
  · rw [splitChild_eq hc]
    simp [BTreeNode.n_keys]

/-- Witness for C4 at a concrete split: order `t = 2`, a parent with one key `10`
and a full first child `[1, 2, 3]`. -/
theorem C4_splitChild_behavior_witness :
    ∃ keep fresh : BTreeNode,
      splitChild 2 (.mk false [10] [.mk true [1, 2, 3] [] 3, .mk true [11, 12] [] 2] 1) 0 =
        .mk false (([10] : List Int).insertIdx 0 (([1, 2, 3] : List Int).getD 1 0))
          ((([BTreeNode.mk true [1, 2, 3] [] 3, .mk true [11, 12] [] 2].set 0 keep)).insertIdx 1
            fresh) 2 ∧
      keep.keys = ([1, 2, 3] : List Int).take 1 ∧ keep.keys.length = 1 ∧
      fresh.keys = ([1, 2, 3] : List Int).drop 2 ∧ fresh.keys.length = 1 ∧
      (true = false → keep.children = ([] : List BTreeNode).take 2 ∧
        keep.children.length = 2 ∧
        fresh.children = ([] : List BTreeNode).drop 2 ∧ fresh.children.length = 2) ∧
      (true = true → keep.children = [] ∧ fresh.children = []) ∧
      (([10] : List Int).insertIdx 0 (([1, 2, 3] : List Int).getD 1 0))[0]? =
        some (([1, 2, 3] : List Int).getD 1 0) ∧
      (([10] : List Int).insertIdx 0 (([1, 2, 3] : List Int).getD 1 0)).length = 2 ∧
      (([BTreeNode.mk true [1, 2, 3] [] 3, .mk true [11, 12] [] 2].set 0 keep).insertIdx 1
        fresh).length = 3 ∧
      (splitChild 2 (.mk false [10] [.mk true [1, 2, 3] [] 3, .mk true [11, 12] [] 2] 1) 0).n_keys =
        2 :=
  @C4_splitChild_behavior 2 (by decide) false true [10] [1, 2, 3]
    [BTreeNode.mk true [1, 2, 3] [] 3, BTreeNode.mk true [11, 12] [] 2] [] 1 3 0
    rfl (by decide) (by decide) (fun h => nomatch h)

/-! ### Claim C2: key-count and child-count bounds -/

/-- C2: for every order `t ≥ 2` and every key sequence inserted into a fresh
`BTree(t)`, in the resulting tree every non-root node has between `t-1` and
`2t-1` keys, every internal node with `k` keys has exactly `k+1` children, and
every leaf has no children. -/
theorem C2_key_count_invariant {t : Nat} {ks : List Int} {tr : BTree} (ht : 2 ≤ t)
    (hb : buildTree t ks = some tr) : countsOk t true tr.root = true := by
  obtain ⟨tr2, heq, -, hwf, -, -⟩ := buildTree_master ht ks
  rw [hb] at heq
  cases heq
  exact countsOk_of_wf tr.root true hwf

/-- Witness for C2: order 2, keys `[3, 1, 2, 5, 4]`. -/
theorem C2_key_count_invariant_witness :
    countsOk 2 true ((buildTree 2 [3, 1, 2, 5, 4]).getD (BTree.new 2)).root = true :=
  @C2_key_count_invariant 2 [3, 1, 2, 5, 4] ((buildTree 2 [3, 1, 2, 5, 4]).getD (BTree.new 2))
    (by decide) rfl

/-! ### Claim C3: equal leaf depth, height grows only by root splits -/

/-- C3: after every insert from a fresh `BTree(t)` all leaves lie at the same
depth, and one further insert keeps this invariant while increasing the height
exactly when the root was full (the root split performed by `insert`), leaving
it unchanged otherwise. -/
theorem C3_balance_and_height {t : Nat} {ks : List Int} {tr : BTree} (ht : 2 ≤ t)
    (hb : buildTree t ks = some tr) :
    equalLeafDepth tr.root = true ∧
    ∀ k : Int, ∃ tr', tr.insert k = some tr' ∧ equalLeafDepth tr'.root = true ∧
      height tr'.root = height tr.root + (if isFull t tr.root then 1 else 0) := by
  obtain ⟨tr2, heq, htt, hwf, hbal, -⟩ := buildTree_master ht ks
  rw [hb] at heq
  cases heq
  refine ⟨equalLeafDepth_of_balanced hbal, ?_⟩
  intro k
  rw [← htt] at ht hwf
  obtain ⟨tr', h1, -, -, hbal', -, hh⟩ := insert_master ht hwf hbal k
  rw [htt] at hh
  exact ⟨tr', h1, equalLeafDepth_of_balanced hbal', hh⟩

/-- Witness for C3: order 2, keys `[1, 2, 3]` (the next insert splits the full root). -/
theorem C3_balance_and_height_witness :
    equalLeafDepth ((buildTree 2 [1, 2, 3]).getD (BTree.new 2)).root = true ∧
    ∀ k : Int, ∃ tr',
      ((buildTree 2 [1, 2, 3]).getD (BTree.new 2)).insert k = some tr' ∧
      equalLeafDepth tr'.root = true ∧
      height tr'.root = height ((buildTree 2 [1, 2, 3]).getD (BTree.new 2)).root +
        (if isFull 2 ((buildTree 2 [1, 2, 3]).getD (BTree.new 2)).root then 1 else 0) :=
  @C3_balance_and_height 2 [1, 2, 3] ((buildTree 2 [1, 2, 3]).getD (BTree.new 2))
    (by decide) rfl

/-! ### Claim C9: the bookkeeping invariant -/

/-- C9: construction establishes, and every insert preserves, the bookkeeping
invariant that `n_keys` equals the length of the key list, an internal node with
`n_keys` keys has `n_keys + 1` children, and a leaf has none.  (`search` does
not mutate the tree, so it preserves the invariant trivially.) -/
theorem C9_bookkeeping_invariant {t : Nat} (ht : 2 ≤ t) :
    bkOk (BTree.new t).root = true ∧
    ∀ ks tr, buildTree t ks = some tr →
      bkOk tr.root = true ∧
      ∀ k : Int, ∃ tr', tr.insert k = some tr' ∧ bkOk tr'.root = true := by
  constructor
  · show bkOk (.mk true [] [] 0) = true
    rw [bkOk_mk]
    exact ⟨rfl, fun _ => rfl, by simp, by simp⟩
  · intro ks tr hb
    obtain ⟨tr2, heq, htt, hwf, hbal, -⟩ := buildTree_master ht ks
    rw [hb] at heq
    cases heq
    refine ⟨bkOk_of_wf tr.root true hwf, ?_⟩
    intro k
    rw [← htt] at ht hwf
    obtain ⟨tr', h1, -, hwf', -, -⟩ := insert_master ht hwf hbal k
    exact ⟨tr', h1, bkOk_of_wf tr'.root true hwf'⟩

/-- Witness for C9: order 3, keys `[4, 2, 6]`. -/
theorem C9_bookkeeping_invariant_witness :
    bkOk (BTree.new 3).root = true ∧
    ∀ ks tr, buildTree 3 ks = some tr →
      bkOk tr.root = true ∧
      ∀ k : Int, ∃ tr', tr.insert k = some tr' ∧ bkOk tr'.root = true :=
  C9_bookkeeping_invariant (by decide)

/-! ### Claim C10: inserting a duplicate adds a second copy -/

/-- C10: `insert` performs no duplicate check: inserting a key `k` already in
the tree succeeds, increases the total number of stored keys by exactly one,
increases the number of copies of `k` by one, and leaves at least two copies of
`k` in the tree. -/
theorem C10_duplicate_insert {t : Nat} {ks : List Int} {tr : BTree} {k : Int} (ht : 2 ≤ t)
    (hb : buildTree t ks = some tr) (hmem : k ∈ inorder tr.root) :
    ∃ tr', tr.insert k = some tr' ∧
      (inorder tr'.root).length = (inorder tr.root).length + 1 ∧
      (inorder tr'.root).count k = (inorder tr.root).count k + 1 ∧
      2 ≤ (inorder tr'.root).count k := by
  obtain ⟨tr2, heq, htt, hwf, hbal, -⟩ := buildTree_master ht ks
  rw [hb] at heq
  cases heq
  rw [← htt] at ht hwf
  obtain ⟨tr', h1, -, -, -, hperm, -⟩ := insert_master ht hwf hbal k
  have hcount : (inorder tr'.root).count k = (inorder tr.root).count k + 1 := by
    rw [hperm.count_eq]
    simp
  have hpos : 0 < (inorder tr.root).count k := List.count_pos_iff.mpr hmem
  refine ⟨tr', h1, ?_, hcount, by omega⟩
  rw [hperm.length_eq]
  simp

/-- Witness for C10: order 2, tree built from `[1, 2, 3]`, re-inserting `2`. -/
theorem C10_duplicate_insert_witness :
    ∃ tr', ((buildTree 2 [1, 2, 3]).getD (BTree.new 2)).insert 2 = some tr' ∧
      (inorder tr'.root).length =
        (inorder ((buildTree 2 [1, 2, 3]).getD (BTree.new 2)).root).length + 1 ∧
      (inorder tr'.root).count 2 =
        (inorder ((buildTree 2 [1, 2, 3]).getD (BTree.new 2)).root).count 2 + 1 ∧
      2 ≤ (inorder tr'.root).count 2 :=
  @C10_duplicate_insert 2 [1, 2, 3] ((buildTree 2 [1, 2, 3]).getD (BTree.new 2)) 2
    (by decide) rfl (by decide)

/-! ### Ordering: bound helpers -/

theorem okLo_mono {lo : Option Int} {a b : Int} (h1 : okLo lo a = true) (h2 : a ≤ b) :
    okLo lo b = true := by
  cases lo with
  | none => rfl
  | some v =>
    simp only [okLo, decide_eq_true_eq] at h1 ⊢
    omega

theorem okHi_mono {hi : Option Int} {a b : Int} (h1 : okHi a hi = true) (h2 : b ≤ a) :
    okHi b hi = true := by
  cases hi with
  | none => rfl
  | some v =>
    simp only [okHi, decide_eq_true_eq] at h1 ⊢
    omega

theorem okLo_some_iff {a b : Int} : okLo (some a) b = true ↔ a < b := by
  simp [okLo]

theorem okHi_some_iff {a b : Int} : okHi a (some b) = true ↔ a < b := by
  simp [okHi]

/-! ### Ordering: properties of `keysBetween` -/

theorem keysBetween_mem {lo hi : Option Int} :
    ∀ {ks : List Int}, keysBetween lo hi ks = true →
      ∀ x ∈ ks, okLo lo x = true ∧ okHi x hi = true := by
  intro ks
  induction ks generalizing lo with
  | nil => intro _ x hx; cases hx
  | cons k ks ih =>
    intro h x hx
    simp only [keysBetween, Bool.and_eq_true] at h
    obtain ⟨⟨h1, h2⟩, h3⟩ := h
    rcases List.mem_cons.mp hx with rfl | hx2
    · exact ⟨h1, h2⟩
    · obtain ⟨h4, h5⟩ := ih h3 x hx2
      exact ⟨okLo_mono h1 (le_of_lt (okLo_some_iff.mp h4)), h5⟩

theorem keysBetween_pairwise {lo hi : Option Int} :
    ∀ {ks : List Int}, keysBetween lo hi ks = true → List.Pairwise (· < ·) ks := by
  intro ks
  induction ks generalizing lo with
  | nil => intro _; exact List.Pairwise.nil
  | cons k ks ih =>
    intro h
    simp only [keysBetween, Bool.and_eq_true] at h
    obtain ⟨⟨h1, h2⟩, h3⟩ := h
    refine List.pairwise_cons.mpr ⟨?_, ih h3⟩
    intro x hx
    exact okLo_some_iff.mp (keysBetween_mem h3 x hx).1

theorem keysBetween_tail {lo hi : Option Int} {k : Int} {ks : List Int}
    (h : keysBetween lo hi (k :: ks) = true) :
    okLo lo k = true ∧ okHi k hi = true ∧ keysBetween (some k) hi ks = true := by
  simp only [keysBetween, Bool.and_eq_true] at h
  exact ⟨h.1.1, h.1.2, h.2⟩

theorem getD_mem {ks : List Int} {m : Nat} (h : m < ks.length) : ks.getD m 0 ∈ ks := by
  rw [getD_of_getElem? (List.getElem?_eq_getElem h)]
  exact List.getElem_mem h

theorem pairwise_getD_lt {ks : List Int} (h : List.Pairwise (· < ·) ks) {a b : Nat}
    (hab : a < b) (hb : b < ks.length) : ks.getD a 0 < ks.getD b 0 := by
  have ha : a < ks.length := by omega
  rw [getD_of_getElem? (List.getElem?_eq_getElem ha),
    getD_of_getElem? (List.getElem?_eq_getElem hb)]
  exact List.pairwise_iff_getElem.mp h a b ha hb hab

theorem keysBetween_insertIdx {lo hi : Option Int} {key : Int} :
    ∀ {pos : Nat} {ks : List Int}, keysBetween lo hi ks = true →
      okLo lo key = true → okHi key hi = true →
      (∀ m, m < pos → ks.getD m 0 < key) →
      (pos < ks.length → key < ks.getD pos 0) →
      pos ≤ ks.length →
      keysBetween lo hi (ks.insertIdx pos key) = true := by
  intro pos
  induction pos generalizing lo with
  | zero =>
    intro ks h hlo hhi _ hnext _
    cases ks with
    | nil => simp [keysBetween, hlo, hhi]
    | cons k ks =>
      have hk : key < k := by simpa using hnext (by simp)
      obtain ⟨h1, h2, h3⟩ := keysBetween_tail h
      simp only [List.insertIdx_zero, keysBetween, Bool.and_eq_true]
      refine ⟨⟨hlo, hhi⟩, ⟨⟨okLo_some_iff.mpr hk, h2⟩, h3⟩⟩
  | succ pos ih =>
    intro ks h hlo hhi hprev hnext hlen
    cases ks with
    | nil => simp at hlen
    | cons k ks =>
      obtain ⟨h1, h2, h3⟩ := keysBetween_tail h
      rw [List.insertIdx_succ_cons]
      simp only [keysBetween, Bool.and_eq_true]
      refine ⟨⟨h1, h2⟩, ?_⟩
      have hkey : k < key := by simpa using hprev 0 (by omega)
      refine ih h3 (okLo_some_iff.mpr hkey) hhi ?_ ?_ (by simpa using hlen)
      · intro m hm
        have := hprev (m + 1) (by omega)
        simpa using this
      · intro hp
        have := hnext (by simpa using hp)
        simpa using this

/-! ### Ordering: child bounds inside a node -/

/-- The exclusive lower bound that the ordering invariant imposes on child `i`:
the outer bound for `i = 0`, otherwise the key to its left. -/
def chLo (lo : Option Int) (keys : List Int) : Nat → Option Int
  | 0 => lo
  | j + 1 => some (keys.getD j 0)

/-- The exclusive upper bound that the ordering invariant imposes on child `i`:
the key to its right when there is one, otherwise the outer bound. -/
def chHi (hi : Option Int) (keys : List Int) (j : Nat) : Option Int :=
  if j < keys.length then some (keys.getD j 0) else hi

theorem chLo_cons {lo : Option Int} {k : Int} {ks : List Int} {j : Nat} :
    chLo lo (k :: ks) (j + 1) = chLo (some k) ks j := by
  cases j with
  | zero => simp [chLo]
  | succ j => simp [chLo]

theorem chHi_cons {hi : Option Int} {k : Int} {ks : List Int} {j : Nat} :
    chHi hi (k :: ks) (j + 1) = chHi hi ks j := by
  simp only [chHi, List.length_cons]
  by_cases h : j < ks.length
  · rw [if_pos (by omega), if_pos h]
    simp
  · rw [if_neg (by omega), if_neg h]

/-! ### Ordering: structural lemmas about `seqOrdered` -/

theorem seqOrdered_keysBetween :
    ∀ {children : List BTreeNode} {lo hi : Option Int} {keys : List Int},
      seqOrdered lo hi keys children = true → keysBetween lo hi keys = true := by
  intro children
  induction children with
  | nil => intro lo hi keys h; simpa [seqOrdered] using h
  | cons c cs ih =>
    intro lo hi keys h
    cases keys with
    | nil => rfl
    | cons k ks =>
      simp only [seqOrdered, Bool.and_eq_true] at h
      obtain ⟨⟨⟨h1, h2⟩, -⟩, h4⟩ := h
      simp only [keysBetween, Bool.and_eq_true]
      exact ⟨⟨h1, h2⟩, ih h4⟩

theorem seqOrdered_child_at :
    ∀ {j : Nat} {children : List BTreeNode} {lo hi : Option Int} {keys : List Int}
      {c : BTreeNode},
      seqOrdered lo hi keys children = true → children[j]? = some c →
      nodeOrdered (chLo lo keys j) (chHi hi keys j) c = true := by
  intro j
  induction j with
  | zero =>
    intro children lo hi keys c h hc
    cases children with
    | nil => simp at hc
    | cons c0 cs =>
      simp only [List.getElem?_cons_zero, Option.some_inj] at hc
      subst hc
      cases keys with
      | nil =>
        cases cs with
        | nil => simpa [seqOrdered, chLo, chHi] using h
        | cons c2 cs2 => simp [seqOrdered] at h
      | cons k ks =>
        simp only [seqOrdered, Bool.and_eq_true] at h
        simp only [chLo, chHi, List.length_cons, if_pos (by omega : 0 < ks.length + 1)]
        simpa [List.getD_cons_zero] using h.1.2
  | succ j ih =>
    intro children lo hi keys c h hc
    cases children with
    | nil => simp at hc
    | cons c0 cs =>
      simp only [List.getElem?_cons_succ] at hc
      cases keys with
      | nil =>
        cases cs with
        | nil => simp at hc
        | cons c2 cs2 => simp [seqOrdered] at h
      | cons k ks =>
        simp only [seqOrdered, Bool.and_eq_true] at h
        rw [chLo_cons, chHi_cons]
        exact ih h.2 hc

theorem seqOrdered_set_at :
    ∀ {j : Nat} {children : List BTreeNode} {lo hi : Option Int} {keys : List Int}
      {c c' : BTreeNode},
      seqOrdered lo hi keys children = true → children[j]? = some c →
      nodeOrdered (chLo lo keys j) (chHi hi keys j) c' = true →
      seqOrdered lo hi keys (children.set j c') = true := by
  intro j
  induction j with
  | zero =>
    intro children lo hi keys c c' h hc hc'
    cases children with
    | nil => simp at hc
    | cons c0 cs =>
      rw [List.set_cons_zero]
      cases keys with
      | nil =>
        cases cs with
        | nil => simpa [seqOrdered, chLo, chHi] using hc'
        | cons c2 cs2 => simp [seqOrdered] at h
      | cons k ks =>
        simp only [seqOrdered, Bool.and_eq_true] at h ⊢
        refine ⟨⟨⟨h.1.1.1, h.1.1.2⟩, ?_⟩, h.2⟩
        simp only [chLo, chHi, List.length_cons, if_pos (by omega : 0 < ks.length + 1)] at hc'
        simpa [List.getD_cons_zero] using hc'
  | succ j ih =>
    intro children lo hi keys c c' h hc hc'
    cases children with
    | nil => simp at hc
    | cons c0 cs =>
      simp only [List.getElem?_cons_succ] at hc
      rw [List.set_cons_succ]
      cases keys with
      | nil =>
        cases cs with
        | nil => simp at hc
        | cons c2 cs2 => simp [seqOrdered] at h
      | cons k ks =>
        simp only [seqOrdered, Bool.and_eq_true] at h ⊢
        rw [chLo_cons, chHi_cons] at hc'
        exact ⟨h.1, ih h.2 hc hc'⟩

theorem seqOrdered_take_drop :
    ∀ (m : Nat) {lo hi : Option Int} {keys : List Int} {children : List BTreeNode},
      seqOrdered lo hi keys children = true → m < keys.length →
      (children.length = keys.length + 1 ∨ children = []) →
      okLo lo (keys.getD m 0) = true ∧ okHi (keys.getD m 0) hi = true ∧
      seqOrdered lo (some (keys.getD m 0)) (keys.take m) (children.take (m + 1)) = true ∧
      seqOrdered (some (keys.getD m 0)) hi (keys.drop (m + 1)) (children.drop (m + 1)) = true := by
  intro m
  induction m with
  | zero =>
    intro lo hi keys children h hm hlen
    cases keys with
    | nil => simp at hm
    | cons k ks =>
      rcases hlen with hlen | rfl
      · cases children with
        | nil => simp at hlen
        | cons c cs =>
          simp only [seqOrdered, Bool.and_eq_true] at h
          obtain ⟨⟨⟨h1, h2⟩, h3⟩, h4⟩ := h
          simp only [List.getD_cons_zero, List.take_zero, List.take_succ_cons, List.take_zero,
            List.drop_succ_cons, List.drop_zero]
          exact ⟨h1, h2, by simpa [seqOrdered] using h3, h4⟩
      · obtain ⟨h1, h2, h3⟩ := keysBetween_tail (by simpa [seqOrdered] using h)
        simp only [List.getD_cons_zero, List.take_zero, List.take_nil, List.drop_succ_cons,
          List.drop_nil, List.drop_zero]
        exact ⟨h1, h2, rfl, by simpa [seqOrdered] using h3⟩
  | succ m ih =>
    intro lo hi keys children h hm hlen
    cases keys with
    | nil => simp at hm
    | cons k ks =>
      have hm' : m < ks.length := by simpa using hm
      rcases hlen with hlen | rfl
      · cases children with
        | nil => simp at hlen
        | cons c cs =>
          simp only [seqOrdered, Bool.and_eq_true] at h
          obtain ⟨⟨⟨h1, h2⟩, h3⟩, h4⟩ := h
          obtain ⟨g1, g2, g3, g4⟩ := ih h4 hm' (Or.inl (by simpa using hlen))
          simp only [List.getD_cons_succ, List.take_succ_cons, List.drop_succ_cons]
          refine ⟨okLo_mono h1 (le_of_lt (okLo_some_iff.mp g1)), g2, ?_, g4⟩
          simp only [seqOrdered, Bool.and_eq_true]
          exact ⟨⟨⟨h1, okHi_some_iff.mpr (okLo_some_iff.mp g1)⟩, h3⟩, g3⟩
      · obtain ⟨h1, h2, h3⟩ := keysBetween_tail (by simpa [seqOrdered] using h)
        obtain ⟨g1, g2, g3, g4⟩ := @ih (some k) hi ks [] (by simpa [seqOrdered] using h3) hm'
          (Or.inr rfl)
        simp only [List.getD_cons_succ, List.take_succ_cons, List.take_nil,
          List.drop_succ_cons, List.drop_nil]
        refine ⟨okLo_mono h1 (le_of_lt (okLo_some_iff.mp g1)), g2, ?_, g4⟩
        simp only [seqOrdered, keysBetween, Bool.and_eq_true]
        refine ⟨⟨h1, okHi_some_iff.mpr (okLo_some_iff.mp g1)⟩, ?_⟩
        simpa [seqOrdered] using g3

theorem splitChild_parts_ordered {t : Nat} (ht : 2 ≤ t) {cl : Bool} {ckeys : List Int}
    {cchildren : List BTreeNode} {cn : Nat}
    (hwf : wfNode t false (.mk cl ckeys cchildren cn) = true)
    (hfull : cn = 2 * t - 1) :
    ∀ lo hi, nodeOrdered lo hi (.mk cl ckeys cchildren cn) = true →
      okLo lo (ckeys.getD (t - 1) 0) = true ∧ okHi (ckeys.getD (t - 1) 0) hi = true ∧
      nodeOrdered lo (some (ckeys.getD (t - 1) 0))
        (.mk cl (ckeys.take (t - 1)) (if cl then cchildren else cchildren.take t) (t - 1)) = true ∧
      nodeOrdered (some (ckeys.getD (t - 1) 0)) hi
        (.mk cl (ckeys.drop t) (if cl then [] else cchildren.drop t) (t - 1)) = true := by
  intro lo hi hord
  obtain ⟨hn, -, -, hleaf, hint, -⟩ := wfNode_mk.mp hwf
  have hck : ckeys.length = 2 * t - 1 := by omega
  rw [nodeOrdered_mk] at hord
  have hlen : cchildren.length = ckeys.length + 1 ∨ cchildren = [] := by
    cases cl with
    | true => exact Or.inr (hleaf rfl)
    | false => exact Or.inl (hint rfl)
  obtain ⟨g1, g2, g3, g4⟩ := seqOrdered_take_drop (t - 1) hord (by omega) hlen
  have e1 : t - 1 + 1 = t := by omega
  rw [e1] at g3 g4
  refine ⟨g1, g2, ?_, ?_⟩
  · rw [nodeOrdered_mk]
    cases cl with
    | true =>
      have hce : cchildren = [] := hleaf rfl
      subst hce
      simpa using g3
    | false => simpa using g3
  · rw [nodeOrdered_mk]
    cases cl with
    | true =>
      have hce : cchildren = [] := hleaf rfl
      subst hce
      simpa using g4
    | false => simpa using g4

theorem seqOrdered_split_insert {median : Int} {keep fresh fc : BTreeNode}
    (hloc : ∀ lo' hi', nodeOrdered lo' hi' fc = true →
      okLo lo' median = true ∧ okHi median hi' = true ∧
      nodeOrdered lo' (some median) keep = true ∧ nodeOrdered (some median) hi' fresh = true) :
    ∀ (i : Nat) {lo hi : Option Int} {keys : List Int} {children : List BTreeNode},
      seqOrdered lo hi keys children = true →
      i ≤ keys.length → children[i]? = some fc →
      seqOrdered lo hi (keys.insertIdx i median)
        ((children.set i keep).insertIdx (i + 1) fresh) = true := by
  intro i
  induction i with
  | zero =>
    intro lo hi keys children h _ hc
    cases children with
    | nil => simp at hc
    | cons c0 cs =>
      simp only [List.getElem?_cons_zero, Option.some_inj] at hc
      subst hc
      rw [List.set_cons_zero, List.insertIdx_zero, List.insertIdx_succ_cons, List.insertIdx_zero]
      cases keys with
      | nil =>
        cases cs with
        | nil =>
          obtain ⟨g1, g2, g3, g4⟩ := hloc lo hi (by simpa [seqOrdered] using h)
          simp only [seqOrdered, Bool.and_eq_true]
          exact ⟨⟨⟨g1, g2⟩, g3⟩, by simpa [seqOrdered] using g4⟩
        | cons c2 cs2 => simp [seqOrdered] at h
      | cons k ks =>
        simp only [seqOrdered, Bool.and_eq_true] at h
        obtain ⟨⟨⟨h1, h2⟩, h3⟩, h4⟩ := h
        obtain ⟨g1, g2, g3, g4⟩ := hloc lo (some k) h3
        have hmk : median < k := okHi_some_iff.mp g2
        simp only [seqOrdered, Bool.and_eq_true]
        exact ⟨⟨⟨g1, okHi_mono h2 (le_of_lt hmk)⟩, g3⟩,
          ⟨⟨⟨okLo_some_iff.mpr hmk, h2⟩, g4⟩, h4⟩⟩
  | succ i ih =>
    intro lo hi keys children h hk hc
    cases children with
    | nil => simp at hc
    | cons c0 cs =>
      simp only [List.getElem?_cons_succ] at hc
      cases keys with
      | nil => simp at hk
      | cons k ks =>
        rw [List.insertIdx_succ_cons, List.set_cons_succ, List.insertIdx_succ_cons]
        simp only [seqOrdered, Bool.and_eq_true] at h ⊢
        exact ⟨h.1, ih h.2 (by simpa using hk) hc⟩

/-! ### The ordering master theorem for `_insert_non_full` -/

theorem insertNonFull_ordered {t : Nat} (ht : 2 ≤ t) (key : Int) :
    ∀ (fuel : Nat) (node : BTreeNode) (root : Bool) (lo hi : Option Int),
      tsize node ≤ fuel →
      wfNode t root node = true →
      balanced node = true →
      nodeOrdered lo hi node = true →
      okLo lo key = true → okHi key hi = true →
      key ∉ inorder node →
      ∀ node', insertNonFull t key fuel node = some node' →
        nodeOrdered lo hi node' = true := by
  intro fuel
  induction fuel with
  | zero =>
    intro node root lo hi hts _ _ _ _ _ _ node' _
    exact absurd hts (by have := tsize_pos node; omega)
  | succ fuel ih =>
    intro node root lo hi hts hwf hbal hord hlokey hhikey hfreshkey node' hins
    cases node with
    | mk l keys children n =>
    rw [nodeOrdered_mk] at hord
    have hkeyne : key ∉ keys := fun hk => hfreshkey (by
      simp only [inorder]
      exact mem_keys_inorderMerge hk)
    cases l with
    | true =>
      obtain ⟨hn, hmax, hmin, hleaf, -, -⟩ := wfNode_mk.mp hwf
      have hce : children = [] := hleaf rfl
      subst hce
      have hkeysB : keysBetween lo hi keys = true := by simpa [seqOrdered] using hord
      have hpair := keysBetween_pairwise hkeysB
      obtain ⟨pos, hsc, hple, hFgt, hFle⟩ := @scanDown_spec keys key n (by omega)
      simp only [insertNonFull, hsc, Option.some_inj] at hins
      subst hins
      rw [nodeOrdered_mk]
      have hall : ∀ m, m < pos → keys.getD m 0 < key := by
        intro m hm
        have h1 : keys.getD (pos - 1) 0 ≤ key := hFle (by omega)
        have h2 : keys.getD (pos - 1) 0 ≠ key := fun hEq =>
          hkeyne (hEq ▸ getD_mem (by omega))
        rcases Nat.lt_or_ge m (pos - 1) with h | h
        · have := pairwise_getD_lt hpair h (by omega)
          omega
        · have hme : m = pos - 1 := by omega
          subst hme
          omega
      have hnext : pos < keys.length → key < keys.getD pos 0 := by
        intro hp
        exact hFgt pos le_rfl (by omega)
      have hres := keysBetween_insertIdx hkeysB hlokey hhikey hall hnext
        (by omega : pos ≤ keys.length)
      simpa [seqOrdered] using hres
    | false =>
      obtain ⟨hn, hmax, hmin, -, hint, hch⟩ := wfNode_mk.mp hwf
      have hcl : children.length = keys.length + 1 := hint rfl
      obtain ⟨hbh, hbc⟩ := balanced_mk.mp hbal
      have htsL : tsizeL children ≤ fuel := by
        simp only [tsize] at hts; omega
      have hkeysB : keysBetween lo hi keys = true := seqOrdered_keysBetween hord
      have hpair := keysBetween_pairwise hkeysB
      obtain ⟨i0, hsc, hi0le, hFgt, hFle⟩ := @scanDown_spec keys key n (by omega)
      have hi0lt : i0 < children.length := by omega
      have hc0 : children[i0]? = some children[i0] := List.getElem?_eq_getElem hi0lt
      have hgetD : children.getD i0 default = children[i0] := getD_of_getElem? hc0
      have hc0mem : children[i0] ∈ children := List.getElem_mem hi0lt
      have hstrictlo : 0 < i0 → keys.getD (i0 - 1) 0 < key := by
        intro h0
        have h1 : keys.getD (i0 - 1) 0 ≤ key := hFle h0
        have h2 : keys.getD (i0 - 1) 0 ≠ key := fun hEq =>
          hkeyne (hEq ▸ getD_mem (by omega))
        omega
      have hlo_i0 : okLo (chLo lo keys i0) key = true := by
        cases i0 with
        | zero => exact hlokey
        | succ m =>
          simp only [chLo]
          exact okLo_some_iff.mpr (by simpa using hstrictlo (by omega))
      have hhi_i0 : okHi key (chHi hi keys i0) = true := by
        rw [chHi]
        by_cases hlt : i0 < keys.length
        · rw [if_pos hlt]
          exact okHi_some_iff.mpr (hFgt i0 le_rfl (by omega))
        · rw [if_neg hlt]
          exact hhikey
      by_cases hful : isFull t (children.getD i0 default) = true
      · rcases hfc : children[i0] with ⟨cl, ckeys, cchildren, cn⟩
        have hc0m : children[i0]? = some (.mk cl ckeys cchildren cn) := by
          rw [hc0, hfc]
        have hcwf : wfNode t false (.mk cl ckeys cchildren cn) = true := by
          rw [← hfc]; exact hch _ hc0mem
        have hcbal : balanced (.mk cl ckeys cchildren cn) = true := by
          rw [← hfc]; exact hbc _ hc0mem
        have hcn : cn = 2 * t - 1 := by
          rw [hgetD, hfc] at hful
          exact (isFull_mk (by omega)).mp hful
        have hck : ckeys.length = 2 * t - 1 := by
          obtain ⟨h1, -, -, -, -, -⟩ := wfNode_mk.mp hcwf
          omega
        obtain ⟨hkeepwf, hfreshwf, hsplito, -, -, hkeepb, hfreshb⟩ :=
          splitChild_parts ht hcwf hcbal hcn
        have hloc := splitChild_parts_ordered ht hcwf hcn
        set median := ckeys.getD (t - 1) 0 with hmedian
        set keep : BTreeNode :=
          .mk cl (ckeys.take (t - 1)) (if cl then cchildren else cchildren.take t) (t - 1)
          with hkeep
        set fresh : BTreeNode :=
          .mk cl (ckeys.drop t) (if cl then [] else cchildren.drop t) (t - 1) with hfresh
        have hpeq : splitChild t (.mk false keys children n) i0 =
            .mk false (keys.insertIdx i0 median)
              ((children.set i0 keep).insertIdx (i0 + 1) fresh) (n + 1) :=
          splitChild_eq hc0m
        set pkeys := keys.insertIdx i0 median with hpkeys
        set pchildren := (children.set i0 keep).insertIdx (i0 + 1) fresh with hpchildren
        have hi0k : i0 ≤ keys.length := by omega
        have hpklen : pkeys.length = keys.length + 1 :=
          List.length_insertIdx i0 keys hi0k
        have hsetlen : (children.set i0 keep).length = children.length :=
          List.length_set children i0 keep
        have hpclen : pchildren.length = children.length + 1 := by
          rw [hpchildren, List.length_insertIdx (i0 + 1) _ (by rw [hsetlen]; omega), hsetlen]
        have hpkD : pkeys.getD i0 0 = median := by
          rw [hpkeys]
          apply getD_of_getElem?
          rw [List.getElem?_eq_some_iff]
          exact ⟨by rw [List.length_insertIdx i0 keys hi0k]; omega,
            List.getElem_insertIdx_self keys median i0 hi0k⟩
        have hkeepat : pchildren[i0]? = some keep := by
          rw [hpchildren]
          have h1 : (children.set i0 keep)[i0]? = some keep := by
            rw [List.getElem?_set]
            simp [hi0lt]
          have h2 := List.getElem_insertIdx_of_lt (children.set i0 keep) fresh (i0 + 1) i0
            (by omega) (by omega)
          rw [List.getElem?_eq_some_iff]
          refine ⟨by rw [List.length_insertIdx (i0 + 1) _ (by rw [hsetlen]; omega), hsetlen]; omega,
            ?_⟩
          rw [h2]
          exact (List.getElem?_eq_some_iff.mp h1).2
        have hfreshat : pchildren[i0 + 1]? = some fresh := by
          rw [hpchildren]
          have := List.getElem_insertIdx_self (children.set i0 keep) fresh (i0 + 1)
            (by rw [hsetlen]; omega)
          rw [List.getElem?_eq_some_iff]
          exact ⟨by rw [List.length_insertIdx (i0 + 1) _ (by rw [hsetlen]; omega), hsetlen]; omega,
            this⟩
        have hinp : inorderMerge pkeys pchildren = inorderMerge keys children := by
          rw [hpkeys, hpchildren]
          exact inorderMerge_insert_set (by simpa using hsplito) i0 keys children hi0k hc0m
        have hmedmem : median ∈ inorderMerge keys children := by
          apply mem_inorderMerge_of_mem_child hc0m
          simp only [inorder]
          exact mem_keys_inorderMerge (hmedian ▸ getD_mem (by omega))
        have hkeymed : key ≠ median := by
          intro hEq
          exact hfreshkey (by simp only [inorder]; exact hEq ▸ hmedmem)
        have hpordered : seqOrdered lo hi pkeys pchildren = true :=
          seqOrdered_split_insert hloc i0 hord hi0k hc0m
        set i1 := if key > median then i0 + 1 else i0 with hi1
        set cnext : BTreeNode := if key > median then fresh else keep with hcnext
        have hcnextat : pchildren[i1]? = some cnext := by
          rw [hi1, hcnext]
          by_cases hgt : key > median
          · simp only [if_pos hgt]; exact hfreshat
          · simp only [if_neg hgt]; exact hkeepat
        have hlo_i1 : okLo (chLo lo pkeys i1) key = true := by
          rw [hi1]
          by_cases hgt : key > median
          · rw [if_pos hgt]
            simp only [chLo, hpkD]
            exact okLo_some_iff.mpr hgt
          · rw [if_neg hgt]
            cases i0 with
            | zero => exact hlokey
            | succ m =>
              simp only [chLo]
              have : pkeys.getD m 0 = keys.getD m 0 := by
                rw [hpkeys]
                apply getD_of_getElem?
                rw [List.getElem?_eq_some_iff]
                refine ⟨by rw [List.length_insertIdx _ keys hi0k]; omega, ?_⟩
                rw [List.getElem_insertIdx_of_lt keys median (m + 1) m (by omega) (by omega)]
                exact (getD_of_getElem? (List.getElem?_eq_getElem (by omega))).symm
              rw [this]
              exact okLo_some_iff.mpr (by simpa using hstrictlo (by omega))
        have hhi_i1 : okHi key (chHi hi pkeys i1) = true := by
          rw [hi1]
          by_cases hgt : key > median
          · rw [if_pos hgt, chHi]
            by_cases hlt : i0 + 1 < pkeys.length
            · rw [if_pos hlt]
              have : pkeys.getD (i0 + 1) 0 = keys.getD i0 0 := by
                rw [hpkeys]
                apply getD_of_getElem?
                rw [List.getElem?_eq_some_iff]
                refine ⟨by rw [List.length_insertIdx _ keys hi0k]; omega, ?_⟩
                have h3 := List.getElem_insertIdx_add_succ keys median i0 0 (by omega)
                simp only [Nat.add_zero] at h3
                rw [h3]
                exact (getD_of_getElem? (List.getElem?_eq_getElem (by omega))).symm
              rw [this]
              exact okHi_some_iff.mpr (hFgt i0 le_rfl (by omega))
            · rw [if_neg hlt]
              exact hhikey
          · rw [if_neg hgt, chHi]
            rw [if_pos (by omega), hpkD]
            exact okHi_some_iff.mpr (by omega)
        have hcnextord : nodeOrdered (chLo lo pkeys i1) (chHi hi pkeys i1) cnext = true :=
          seqOrdered_child_at hpordered hcnextat
        have hcnextwf : wfNode t false cnext = true := by
          rw [hcnext]; by_cases hgt : key > median
          · simp only [if_pos hgt]; exact hfreshwf
          · simp only [if_neg hgt]; exact hkeepwf
        have hcnextbal : balanced cnext = true := by
          rw [hcnext]; by_cases hgt : key > median
          · simp only [if_pos hgt]; exact hfreshb
          · simp only [if_neg hgt]; exact hkeepb
        have hcnextts : tsize cnext ≤ fuel := by
          have hmem : cnext ∈ (splitChild t (.mk false keys children n) i0).children := by
            rw [hpeq]
            simp only [BTreeNode.children]
            have := List.getElem?_eq_some_iff.mp hcnextat
            exact this.2 ▸ List.getElem_mem this.1
          have := tsize_splitChild_child_lt hc0m hmem
          simp only [tsize] at this
          omega
        have hfresh2 : key ∉ inorder cnext := by
          intro hk
          apply hfreshkey
          simp only [inorder]
          rw [← hinp]
          exact mem_inorderMerge_of_mem_child hcnextat hk
        simp only [insertNonFull, hsc] at hins
        rw [if_pos hful, hpeq] at hins
        simp only [BTreeNode.keys, BTreeNode.children, BTreeNode.is_leaf, BTreeNode.n_keys,
          hpkD] at hins
        rw [← hi1] at hins
        simp only [hcnextat] at hins
        rcases hrec : insertNonFull t key fuel cnext with _ | c'
        · simp [hrec] at hins
        · simp only [hrec, Option.some_inj] at hins
          subst hins
          rw [nodeOrdered_mk]
          exact seqOrdered_set_at hpordered hcnextat
            (ih cnext false (chLo lo pkeys i1) (chHi hi pkeys i1) hcnextts hcnextwf hcnextbal
              hcnextord hlo_i1 hhi_i1 hfresh2 c' hrec)
      · have hcord : nodeOrdered (chLo lo keys i0) (chHi hi keys i0) children[i0] = true :=
          seqOrdered_child_at hord hc0
        have hcwf := hch _ hc0mem
        have hcbal := hbc _ hc0mem
        have hcts : tsize children[i0] ≤ fuel := by
          have := tsize_le_of_mem hc0mem
          omega
        have hfresh2 : key ∉ inorder children[i0] := by
          intro hk
          apply hfreshkey
          simp only [inorder]
          exact mem_inorderMerge_of_mem_child hc0 hk
        simp only [insertNonFull, hsc] at hins
        rw [if_neg hful] at hins
        simp only [BTreeNode.keys, BTreeNode.children, BTreeNode.is_leaf, BTreeNode.n_keys,
          hc0] at hins
        rcases hrec : insertNonFull t key fuel children[i0] with _ | c'
        · simp [hrec] at hins
        · simp only [hrec, Option.some_inj] at hins
          subst hins
          rw [nodeOrdered_mk]
          exact seqOrdered_set_at hord hc0
            (ih children[i0] false (chLo lo keys i0) (chHi hi keys i0) hcts hcwf hcbal
              hcord hlo_i0 hhi_i0 hfresh2 c' hrec)

/-! ### Order preservation at the `insert` / `insertMany` level -/

theorem insert_ordered {tr : BTree} (ht : 2 ≤ tr.t)
    (hwf : wfNode tr.t true tr.root = true) (hbal : balanced tr.root = true)
    {key : Int} (hfreshkey : key ∉ inorder tr.root)
    (hord : nodeOrdered none none tr.root = true) :
    ∀ tr', tr.insert key = some tr' → nodeOrdered none none tr'.root = true := by
  intro tr' hins
  by_cases hful : isFull tr.t tr.root = true
  · rcases hroot : tr.root with ⟨l, keys, children, n⟩
    rw [hroot] at hwf hbal hful hord hfreshkey
    have hn : n = 2 * tr.t - 1 := (isFull_mk (by omega)).mp hful
    have hwff : wfNode tr.t false (.mk l keys children n) = true := by
      obtain ⟨h1, h2, -, h4, h5, h6⟩ := wfNode_mk.mp hwf
      exact wfNode_mk.mpr ⟨h1, h2, Or.inr (by omega), h4, h5, h6⟩
    obtain ⟨hkeepwf, hfreshwf, hsplito, hkeeph, hfreshh, hkeepb, hfreshb⟩ :=
      splitChild_parts ht hwff hbal hn
    obtain ⟨g1, g2, g3, g4⟩ := splitChild_parts_ordered ht hwff hn none none hord
    set median := keys.getD (tr.t - 1) 0 with hmedian
    set keep : BTreeNode :=
      .mk l (keys.take (tr.t - 1)) (if l then children else children.take tr.t) (tr.t - 1)
      with hkeep
    set fresh : BTreeNode :=
      .mk l (keys.drop tr.t) (if l then [] else children.drop tr.t) (tr.t - 1) with hfresh
    have h0 : (List.insertIdx 0 (BTreeNode.mk l keys children n) [])[0]? =
        some (.mk l keys children n) := by simp
    have hs2 : splitChild tr.t (.mk false [] (List.insertIdx 0 (.mk l keys children n) []) 0) 0 =
        .mk false [median] [keep, fresh] 1 := by
      rw [splitChild_eq h0]
      simp [hmedian, List.getD_eq_getElem?_getD]
    have hs2wf : wfNode tr.t true (.mk false [median] [keep, fresh] 1) = true := by
      rw [wfNode_mk]
      refine ⟨by simp, by simp; omega, Or.inl rfl, by simp, by simp, ?_⟩
      intro x hx
      rcases List.mem_cons.mp hx with rfl | hx2
      · exact hkeepwf
      · rcases List.mem_cons.mp hx2 with rfl | hx3
        · exact hfreshwf
        · cases hx3
    have hs2bal : balanced (.mk false [median] [keep, fresh] 1) = true := by
      rw [balanced_mk]
      have hH : heightL [keep, fresh] = height (.mk l keys children n) := by
        simp only [heightL]
        omega
      constructor
      · intro x hx
        rw [hH]
        rcases List.mem_cons.mp hx with rfl | hx2
        · exact hkeeph
        · rcases List.mem_cons.mp hx2 with rfl | hx3
          · exact hfreshh
          · cases hx3
      · intro x hx
        rcases List.mem_cons.mp hx with rfl | hx2
        · exact hkeepb
        · rcases List.mem_cons.mp hx2 with rfl | hx3
          · exact hfreshb
          · cases hx3
    have hs2ord : nodeOrdered none none (.mk false [median] [keep, fresh] 1) = true := by
      rw [nodeOrdered_mk]
      simp only [seqOrdered, Bool.and_eq_true]
      refine ⟨⟨⟨rfl, rfl⟩, g3⟩, ?_⟩
      simpa [seqOrdered] using g4
    have hio : inorder (.mk false [median] [keep, fresh] 1) =
        inorder (.mk l keys children n) := by
      rw [hsplito]
      simp [inorder, inorderMerge]
    have hfresh2 : key ∉ inorder (.mk false [median] [keep, fresh] 1) := by
      rw [hio]
      exact hfreshkey
    simp only [BTree.insert, hroot, hful, if_true] at hins
    rw [hs2] at hins
    rcases hrec : insertNonFull tr.t key (tsize (.mk false [median] [keep, fresh] 1))
        (.mk false [median] [keep, fresh] 1) with _ | r
    · simp [hrec] at hins
    · simp only [hrec, Option.some_inj] at hins
      subst hins
      exact insertNonFull_ordered ht key _ _ true none none le_rfl hs2wf hs2bal hs2ord
        rfl rfl hfresh2 r hrec
  · have hnf2 : isFull tr.t tr.root = false := by
      rw [Bool.not_eq_true] at hful
      exact hful
    simp only [BTree.insert, hful, if_false, Bool.false_eq_true] at hins
    rcases hrec : insertNonFull tr.t key (tsize tr.root) tr.root with _ | r
    · simp [hrec] at hins
    · simp only [hrec, Option.some_inj] at hins
      subst hins
      exact insertNonFull_ordered ht key _ _ true none none le_rfl hwf hbal hord
        rfl rfl hfreshkey r hrec

theorem insertMany_ordered :
    ∀ (ks : List Int) (tr : BTree), 2 ≤ tr.t →
    wfNode tr.t true tr.root = true → balanced tr.root = true →
    nodeOrdered none none tr.root = true →
    (∀ k ∈ ks, k ∉ inorder tr.root) → ks.Nodup →
    ∀ tr', tr.insertMany ks = some tr' → nodeOrdered none none tr'.root = true := by
  intro ks
  induction ks with
  | nil =>
    intro tr _ _ _ hord _ _ tr' h
    simp only [BTree.insertMany, Option.some_inj] at h
    subst h
    exact hord
  | cons k ks ih =>
    intro tr ht hwf hbal hord hnew hnd tr' h
    rcases h1 : tr.insert k with _ | tr1
    · rw [BTree.insertMany, h1] at h
      simp at h
    · rw [BTree.insertMany, h1] at h
      obtain ⟨tr1b, h1b, h1t, h1wf, h1bal, h1perm, -⟩ := insert_master ht hwf hbal k
      rw [h1] at h1b
      cases h1b
      have hord1 : nodeOrdered none none tr1.root = true :=
        insert_ordered ht hwf hbal (hnew k (by simp)) hord tr1 h1
      have h1wf2 : wfNode tr1.t true tr1.root = true := by rw [h1t]; exact h1wf
      have hnew1 : ∀ k2 ∈ ks, k2 ∉ inorder tr1.root := by
        intro k2 hk2 hmem
        have := h1perm.mem_iff.mp hmem
        rcases List.mem_cons.mp this with rfl | hmem2
        · exact (List.nodup_cons.mp hnd).1 hk2
        · exact hnew k2 (by simp [hk2]) hmem2
      exact ih tr1 (by omega) h1wf2 h1bal hord1 hnew1 (List.nodup_cons.mp hnd).2 tr' h

theorem buildTree_ordered {t : Nat} (ht : 2 ≤ t) {ks : List Int} (hnd : ks.Nodup) {tr : BTree}
    (hb : buildTree t ks = some tr) : nodeOrdered none none tr.root = true := by
  have hwf : wfNode t true (BTree.new t).root = true := by
    show wfNode t true (.mk true [] [] 0) = true
    rw [wfNode_mk]
    refine ⟨rfl, by simp, Or.inl rfl, fun _ => rfl, by simp, by simp⟩
  have hbal : balanced (BTree.new t).root = true := by
    show balanced (.mk true [] [] 0) = true
    rw [balanced_mk]
    simp
  have hord : nodeOrdered none none (BTree.new t).root = true := rfl
  have hnew : ∀ k ∈ ks, k ∉ inorder (BTree.new t).root := by
    intro k _ hmem
    simp [BTree.new, BTreeNode.new, inorder, inorderMerge] at hmem
  exact insertMany_ordered ks (BTree.new t) ht hwf hbal hord hnew hnd tr hb

/-! ### Search: membership and bounds infrastructure -/

theorem seqOrdered_mem_bounds_aux :
    ∀ (children : List BTreeNode) (keys : List Int) (lo hi : Option Int),
      (∀ c ∈ children, ∀ lo2 hi2, nodeOrdered lo2 hi2 c = true →
        ∀ x ∈ inorder c, okLo lo2 x = true ∧ okHi x hi2 = true) →
      seqOrdered lo hi keys children = true →
      ∀ x ∈ inorderMerge keys children, okLo lo x = true ∧ okHi x hi = true := by
  intro children
  induction children with
  | nil =>
    intro keys lo hi _ h x hx
    simp only [inorderMerge] at hx
    exact keysBetween_mem (by simpa [seqOrdered] using h) x hx
  | cons c cs ih =>
    intro keys lo hi hIH h x hx
    cases keys with
    | nil =>
      cases cs with
      | nil =>
        simp only [inorderMerge, List.append_nil] at hx
        exact hIH c (by simp) lo hi (by simpa [seqOrdered] using h) x hx
      | cons c2 cs2 => simp [seqOrdered] at h
    | cons k ks =>
      simp only [seqOrdered, Bool.and_eq_true] at h
      obtain ⟨⟨⟨h1, h2⟩, h3⟩, h4⟩ := h
      simp only [inorderMerge, List.mem_append, List.mem_cons] at hx
      rcases hx with hx | hx | hx
      · obtain ⟨g1, g2⟩ := hIH c (by simp) lo (some k) h3 x hx
        exact ⟨g1, okHi_mono h2 (le_of_lt (okHi_some_iff.mp g2))⟩
      · subst hx
        exact ⟨h1, h2⟩
      · obtain ⟨g1, g2⟩ := ih ks (some k) hi (fun c2 hc2 => hIH c2 (by simp [hc2])) h4 x hx
        exact ⟨okLo_mono h1 (le_of_lt (okLo_some_iff.mp g1)), g2⟩

theorem nodeOrdered_mem_bounds :
    ∀ (node : BTreeNode) (lo hi : Option Int), nodeOrdered lo hi node = true →
      ∀ x ∈ inorder node, okLo lo x = true ∧ okHi x hi = true := by
  intro node
  induction node using node_ind with
  | h l keys children n ihc =>
    intro lo hi hord x hx
    rw [nodeOrdered_mk] at hord
    simp only [inorder] at hx
    exact seqOrdered_mem_bounds_aux children keys lo hi ihc hord x hx

theorem seqOrdered_mem_locate :
    ∀ (children : List BTreeNode) (keys : List Int) (lo hi : Option Int),
      seqOrdered lo hi keys children = true →
      ∀ x ∈ inorderMerge keys children, x ∈ keys ∨
        ∃ j c, children[j]? = some c ∧ x ∈ inorder c ∧
          nodeOrdered (chLo lo keys j) (chHi hi keys j) c = true := by
  intro children
  induction children with
  | nil =>
    intro keys lo hi _ x hx
    simp only [inorderMerge] at hx
    exact Or.inl hx
  | cons c cs ih =>
    intro keys lo hi h x hx
    cases keys with
    | nil =>
      cases cs with
      | nil =>
        simp only [inorderMerge, List.append_nil] at hx
        refine Or.inr ⟨0, c, by simp, hx, ?_⟩
        simpa [chLo, chHi, seqOrdered] using h
      | cons c2 cs2 => simp [seqOrdered] at h
    | cons k ks =>
      simp only [seqOrdered, Bool.and_eq_true] at h
      obtain ⟨⟨⟨h1, h2⟩, h3⟩, h4⟩ := h
      simp only [inorderMerge, List.mem_append, List.mem_cons] at hx
      rcases hx with hx | hx | hx
      · refine Or.inr ⟨0, c, by simp, hx, ?_⟩
        simp only [chLo, chHi, List.length_cons, if_pos (by omega : 0 < ks.length + 1)]
        simpa [List.getD_cons_zero] using h3
      · subst hx
        exact Or.inl (by simp)
      · rcases ih ks (some k) hi h4 x hx with hks | ⟨j, c2, hj, hx2, hord2⟩
        · exact Or.inl (by simp [hks])
        · refine Or.inr ⟨j + 1, c2, by simpa using hj, hx2, ?_⟩
          rw [chLo_cons, chHi_cons]
          exact hord2

/-! ### Search: the scan agrees with "first key ≥ target" -/

theorem scanGe_eq_findIdx (key : Int) (keys : List Int) :
    ∀ l i, keys.drop i = l → i ≤ keys.length →
      scanGe key keys.length l i = some (i + l.findIdx (fun k => decide (key ≤ k))) := by
  intro l
  induction l with
  | nil =>
    intro i hdrop hle
    have : keys.length ≤ i := by
      have := congrArg List.length hdrop
      simp [List.length_drop] at this
      omega
    have hie : i = keys.length := by omega
    simp [scanGe, hie, List.findIdx_nil]
  | cons k ks ih =>
    intro i hdrop hle
    have hlt : i < keys.length := by
      have := congrArg List.length hdrop
      simp [List.length_drop] at this
      omega
    have hdrop2 : keys.drop (i + 1) = ks := by
      have := congrArg List.tail hdrop
      simpa [List.tail_drop] using this
    by_cases hgt : key > k
    · have hd : decide (key ≤ k) = false := by
        simp only [decide_eq_false_iff_not]
        omega
      rw [List.findIdx_cons, hd]
      simp only [cond_false]
      rw [show scanGe key keys.length (k :: ks) i =
          scanGe key keys.length ks (i + 1) by simp [scanGe, hlt, hgt]]
      rw [ih (i + 1) hdrop2 (by omega)]
      congr 1
      omega
    · have hd : decide (key ≤ k) = true := by
        simp only [decide_eq_true_eq]
        omega
      rw [List.findIdx_cons, hd]
      simp only [cond_true]
      simp [scanGe, hlt, hgt]

/-! ### Search: totality on well-formed trees (claim C7) -/

theorem searchRec_total {t : Nat} (key : Int) :
    ∀ (fuel : Nat) (node : BTreeNode) (root : Bool), tsize node ≤ fuel →
      wfNode t root node = true →
      ∃ r, searchRec key fuel node = some r := by
  intro fuel
  induction fuel with
  | zero =>
    intro node root hts _
    exact absurd hts (by have := tsize_pos node; omega)
  | succ fuel ih =>
    intro node root hts hwf
    cases node with
    | mk l keys children n =>
    obtain ⟨hn, hmax, hmin, hleaf, hint, hch⟩ := wfNode_mk.mp hwf
    obtain ⟨i, hsc, hige, hile, hFlt, hFge⟩ :=
      scanGe_spec key keys keys 0 (by simp) (by omega)
    rw [← hn] at hsc
    by_cases hilt : i < n
    · have hki : keys[i]? = some keys[i] := List.getElem?_eq_getElem (by omega)
      by_cases hkey : key = keys[i]
      · refine ⟨some (.mk l keys children n, i), ?_⟩
        simp only [searchRec, hsc, if_pos hilt, hki]
        simp [hkey]
      · cases l with
        | true =>
          refine ⟨none, ?_⟩
          simp only [searchRec, hsc, if_pos hilt, hki]
          have : (key == keys[i]) = false := by simp [hkey]
          simp [this]
        | false =>
          have hcl : children.length = keys.length + 1 := hint rfl
          have hci : children[i]? = some children[i] := List.getElem?_eq_getElem (by omega)
          have hcts : tsize children[i] ≤ fuel := by
            have := tsize_le_of_mem (List.getElem_mem (show i < children.length by omega))
            simp only [tsize] at hts
            omega
          obtain ⟨r, hr⟩ := ih children[i] false hcts
            (hch _ (List.getElem_mem (show i < children.length by omega)))
          refine ⟨r, ?_⟩
          simp only [searchRec, hsc, if_pos hilt, hki]
          have hkb : (key == keys[i]) = false := by simp [hkey]
          simp only [hkb, if_false, Bool.false_eq_true, hci]
          simpa using hr
    · cases l with
      | true =>
        refine ⟨none, ?_⟩
        simp [searchRec, hsc, hilt]
      | false =>
        have hcl : children.length = keys.length + 1 := hint rfl
        have hie : i = n := by omega
        have hci : children[i]? = some children[i] := List.getElem?_eq_getElem (by omega)
        have hcts : tsize children[i] ≤ fuel := by
          have := tsize_le_of_mem (List.getElem_mem (show i < children.length by omega))
          simp only [tsize] at hts
          omega
        obtain ⟨r, hr⟩ := ih children[i] false hcts
          (hch _ (List.getElem_mem (show i < children.length by omega)))
        refine ⟨r, ?_⟩
        simp only [searchRec, hsc, if_neg hilt, hci]
        simpa using hr

/-! ### Search: correctness on ordered trees -/

theorem searchRec_correct {t : Nat} (key : Int) :
    ∀ (fuel : Nat) (node : BTreeNode) (root : Bool) (lo hi : Option Int),
      tsize node ≤ fuel →
      wfNode t root node = true →
      nodeOrdered lo hi node = true →
      (key ∈ inorder node →
        ∃ nd i, searchRec key fuel node = some (some (nd, i)) ∧ nd.keys[i]? = some key) ∧
      (key ∉ inorder node → searchRec key fuel node = some none) := by
  intro fuel
  induction fuel with
  | zero =>
    intro node root lo hi hts _ _
    exact absurd hts (by have := tsize_pos node; omega)
  | succ fuel ih =>
    intro node root lo hi hts hwf hord
    cases node with
    | mk l keys children n =>
    obtain ⟨hn, hmax, hmin, hleaf, hint, hch⟩ := wfNode_mk.mp hwf
    rw [nodeOrdered_mk] at hord
    have hkeysB := seqOrdered_keysBetween hord
    have hpair := keysBetween_pairwise hkeysB
    obtain ⟨i, hsc0, -, hile, hFlt, hFge⟩ := scanGe_spec key keys keys 0 (by simp) (by simp)
    rw [← hn] at hsc0
    by_cases hhit : i < n ∧ key = keys.getD i 0
    · obtain ⟨hilt, hkeyeq⟩ := hhit
      have hki : keys[i]? = some keys[i] := List.getElem?_eq_getElem (by omega)
      have hgd : keys.getD i 0 = keys[i] := getD_of_getElem? hki
      have hmem : key ∈ inorder (.mk l keys children n) := by
        simp only [inorder]
        exact mem_keys_inorderMerge (hkeyeq ▸ getD_mem (by omega))
      have hfound : searchRec key (fuel + 1) (.mk l keys children n) =
          some (some (.mk l keys children n, i)) := by
        simp only [searchRec, hsc0, if_pos hilt, hki]
        have : (key == keys[i]) = true := by
          simp only [beq_iff_eq]
          omega
        simp [this]
      constructor
      · intro _
        refine ⟨.mk l keys children n, i, hfound, ?_⟩
        simp only [BTreeNode.keys, hki]
        congr 1
        omega
      · intro hno
        exact absurd hmem hno
    · have hkeynotin : key ∉ keys := by
        intro hk
        obtain ⟨m, hm, hEq⟩ := List.mem_iff_getElem.mp hk
        have hgd : keys.getD m 0 = key := by
          rw [getD_of_getElem? (List.getElem?_eq_getElem hm), hEq]
        rcases Nat.lt_or_ge m i with hmi | hmi
        · have := hFlt m (by omega) hmi
          omega
        · have hiln : i < keys.length := by omega
          have h1 : key ≤ keys.getD i 0 := hFge hiln
          have h2 : keys.getD i 0 ≤ keys.getD m 0 := by
            rcases Nat.lt_or_ge i m with h | h
            · exact le_of_lt (pairwise_getD_lt hpair h hm)
            · have : i = m := by omega
              subst this
              exact le_rfl
          have : key = keys.getD i 0 := by omega
          exact hhit ⟨by omega, this⟩
      cases l with
      | true =>
        have hce : children = [] := hleaf rfl
        subst hce
        have hio : inorder (.mk true keys [] n) = keys := by
          simp [inorder, inorderMerge]
        have hnone : searchRec key (fuel + 1) (.mk true keys [] n) = some none := by
          by_cases hilt : i < n
          · have hki : keys[i]? = some keys[i] := List.getElem?_eq_getElem (by omega)
            simp only [searchRec, hsc0, if_pos hilt, hki]
            have : (key == keys[i]) = false := by
              simp only [beq_eq_false_iff_ne, ne_eq]
              intro hEq
              exact hkeynotin (hEq ▸ List.getElem_mem (by omega : i < keys.length))
            simp [this]
          · simp [searchRec, hsc0, hilt]
        constructor
        · intro hmem
          rw [hio] at hmem
          exact absurd hmem hkeynotin
        · intro _
          exact hnone
      | false =>
        have hcl : children.length = keys.length + 1 := hint rfl
        have hilt2 : i < children.length := by omega
        have hci : children[i]? = some children[i] := List.getElem?_eq_getElem hilt2
        have hcmem : children[i] ∈ children := List.getElem_mem hilt2
        have hcts : tsize children[i] ≤ fuel := by
          have := tsize_le_of_mem hcmem
          simp only [tsize] at hts
          omega
        have hcord : nodeOrdered (chLo lo keys i) (chHi hi keys i) children[i] = true :=
          seqOrdered_child_at hord hci
        have hunfold : searchRec key (fuel + 1) (.mk false keys children n) =
            searchRec key fuel children[i] := by
          by_cases hilt : i < n
          · have hki : keys[i]? = some keys[i] := List.getElem?_eq_getElem (by omega)
            simp only [searchRec, hsc0, if_pos hilt, hki]
            have : (key == keys[i]) = false := by
              simp only [beq_eq_false_iff_ne, ne_eq]
              intro hEq
              exact hkeynotin (hEq ▸ List.getElem_mem (by omega : i < keys.length))
            simp [this, hci]
          · simp [searchRec, hsc0, hilt, hci]
        have hmemiff : key ∈ inorder (.mk false keys children n) ↔
            key ∈ inorder children[i] := by
          constructor
          · intro hmem
            simp only [inorder] at hmem
            rcases seqOrdered_mem_locate children keys lo hi hord key hmem with hk | h2
            · exact absurd hk hkeynotin
            · obtain ⟨j, c, hj, hx, hordc⟩ := h2
              obtain ⟨hb1, hb2⟩ := nodeOrdered_mem_bounds c _ _ hordc key hx
              have hjlen : j < children.length := (List.getElem?_eq_some_iff.mp hj).1
              have hji : j = i := by
                rcases Nat.lt_trichotomy j i with h | h | h
                · exfalso
                  have hjk : j < keys.length := by omega
                  rw [chHi, if_pos hjk] at hb2
                  have := okHi_some_iff.mp hb2
                  have := hFlt j (by omega) h
                  omega
                · exact h
                · exfalso
                  rcases j with _ | m
                  · omega
                  · simp only [chLo] at hb1
                    have h1 := okLo_some_iff.mp hb1
                    have hiln : i < keys.length := by omega
                    have h2 : key ≤ keys.getD i 0 := hFge hiln
                    have h3 : keys.getD i 0 ≤ keys.getD m 0 := by
                      rcases Nat.lt_or_ge i m with h4 | h4
                      · exact le_of_lt (pairwise_getD_lt hpair h4 (by omega))
                      · have : i = m := by omega
                        subst this
                        exact le_rfl
                    omega
              subst hji
              rw [hj] at hci
              simp only [Option.some_inj] at hci
              rw [hci] at hx
              exact hx
          · intro hmem
            simp only [inorder]
            exact mem_inorderMerge_of_mem_child hci hmem
        constructor
        · intro hmem
          obtain ⟨nd, j, hrec, hkey⟩ :=
            (ih children[i] false (chLo lo keys i) (chHi hi keys i) hcts
              (hch _ hcmem) hcord).1 (hmemiff.mp hmem)
          exact ⟨nd, j, by rw [hunfold]; exact hrec, hkey⟩
        · intro hno
          rw [hunfold]
          exact (ih children[i] false (chLo lo keys i) (chHi hi keys i) hcts
            (hch _ hcmem) hcord).2 (fun hmem => hno (hmemiff.mpr hmem))

/-! ### The in-order traversal of an ordered tree is strictly increasing -/

theorem seqOrdered_pairwise_aux :
    ∀ (children : List BTreeNode) (keys : List Int) (lo hi : Option Int),
      (∀ c ∈ children, ∀ lo2 hi2, nodeOrdered lo2 hi2 c = true →
        List.Pairwise (· < ·) (inorder c)) →
      seqOrdered lo hi keys children = true →
      List.Pairwise (· < ·) (inorderMerge keys children) := by
  intro children
  induction children with
  | nil =>
    intro keys lo hi _ h
    simp only [inorderMerge]
    exact keysBetween_pairwise (by simpa [seqOrdered] using h)
  | cons c cs ih =>
    intro keys lo hi hIH h
    cases keys with
    | nil =>
      cases cs with
      | nil =>
        simp only [inorderMerge, List.append_nil]
        exact hIH c (by simp) lo hi (by simpa [seqOrdered] using h)
      | cons c2 cs2 => simp [seqOrdered] at h
    | cons k ks =>
      simp only [seqOrdered, Bool.and_eq_true] at h
      obtain ⟨⟨⟨h1, h2⟩, h3⟩, h4⟩ := h
      simp only [inorderMerge]
      rw [List.pairwise_append]
      refine ⟨hIH c (by simp) lo (some k) h3, ?_, ?_⟩
      · rw [List.pairwise_cons]
        constructor
        · intro x hx
          exact okLo_some_iff.mp
            (seqOrdered_mem_bounds_aux cs ks (some k) hi
              (fun c2 _ => nodeOrdered_mem_bounds c2) h4 x hx).1
        · exact ih ks (some k) hi (fun c2 hc2 => hIH c2 (by simp [hc2])) h4
      · intro a ha b hb
        have hak : a < k := okHi_some_iff.mp
          (nodeOrdered_mem_bounds c lo (some k) h3 a ha).2
        rcases List.mem_cons.mp hb with rfl | hb2
        · exact hak
        · have hkb : k < b := okLo_some_iff.mp
            (seqOrdered_mem_bounds_aux cs ks (some k) hi
              (fun c2 _ => nodeOrdered_mem_bounds c2) h4 b hb2).1
          omega

theorem nodeOrdered_pairwise :
    ∀ (node : BTreeNode) (lo hi : Option Int), nodeOrdered lo hi node = true →
      List.Pairwise (· < ·) (inorder node) := by
  intro node
  induction node using node_ind with
  | h l keys children n ihc =>
    intro lo hi hord
    rw [nodeOrdered_mk] at hord
    simp only [inorder]
    exact seqOrdered_pairwise_aux children keys lo hi ihc hord

/-! ### The corrected per-node subtree ordering (amended claim C6) -/

theorem childKeysBetween_of_bounds {keys : List Int} :
    ∀ (cs : List BTreeNode) (j : Nat),
      (∀ m c, cs[m]? = some c →
        (0 < j + m → ∀ x ∈ inorder c, keys.getD (j + m - 1) 0 < x) ∧
        (j + m < keys.length → ∀ x ∈ inorder c, x < keys.getD (j + m) 0)) →
      childKeysBetween keys j cs = true := by
  intro cs
  induction cs with
  | nil => intro j _; rfl
  | cons c cs ih =>
    intro j hb
    obtain ⟨hb1, hb2⟩ := hb 0 c (by simp)
    simp only [Nat.add_zero] at hb1 hb2
    simp only [childKeysBetween, Bool.and_eq_true]
    refine ⟨⟨?_, ?_⟩, ?_⟩
    · cases j with
      | zero => simp
      | succ j =>
        simp only [Bool.or_eq_true, List.all_eq_true]
        right
        intro x hx
        simpa using hb1 (by omega) x hx
    · by_cases hj : j < keys.length
      · simp only [Bool.or_eq_true, List.all_eq_true]
        right
        intro x hx
        simpa using hb2 hj x hx
      · simp [hj]
    · refine ih (j + 1) ?_
      intro m c2 hm
      have := hb (m + 1) c2 (by simpa using hm)
      constructor
      · intro h0
        have h1 := this.1 (by omega)
        have : j + 1 + m - 1 = j + (m + 1) - 1 := by omega
        rw [this]
        exact h1
      · intro h0
        have h1 := this.2 (by omega)
        have : j + 1 + m = j + (m + 1) := by omega
        rw [this]
        exact h1

theorem subtreeOrder_of_ordered :
    ∀ (node : BTreeNode) (lo hi : Option Int), nodeOrdered lo hi node = true →
      subtreeOrder node = true := by
  intro node
  induction node using node_ind with
  | h l keys children n ihc =>
    intro lo hi hord
    rw [nodeOrdered_mk] at hord
    simp only [subtreeOrder, Bool.and_eq_true]
    constructor
    · cases l with
      | true => rfl
      | false =>
        simp only [if_false, Bool.false_eq_true]
        refine childKeysBetween_of_bounds children 0 ?_
        intro m c hm
        have hordc := seqOrdered_child_at hord hm
        have hbnds := nodeOrdered_mem_bounds c _ _ hordc
        simp only [Nat.zero_add]
        constructor
        · intro h0
          intro x hx
          have := (hbnds x hx).1
          rcases m with _ | m2
          · omega
          · simp only [chLo] at this
            simpa using okLo_some_iff.mp this
        · intro h0 x hx
          have := (hbnds x hx).2
          rw [chHi, if_pos h0] at this
          exact okHi_some_iff.mp this
    · rw [subtreeOrderL_iff]
      intro c hc
      obtain ⟨m, hm, hEq⟩ := List.mem_iff_getElem.mp hc
      have hm2 : children[m]? = some c := by
        rw [List.getElem?_eq_getElem hm, hEq]
      exact ihc c hc _ _ (seqOrdered_child_at hord hm2)

/-! ### Claim C5: the implementation agrees with the spec's step description -/

theorem searchRec_eq_searchSpec {t : Nat} (key : Int) :
    ∀ (fuel : Nat) (node : BTreeNode) (root : Bool),
      wfNode t root node = true →
      searchRec key fuel node = searchSpec key fuel node := by
  intro fuel
  induction fuel with
  | zero =>
    intro node root hwf
    cases node with
    | mk l keys children n =>
    obtain ⟨hn, -, -, -, -, -⟩ := wfNode_mk.mp hwf
    have hfi : scanGe key n keys 0 = some (keys.findIdx (fun k => decide (key ≤ k))) := by
      have := scanGe_eq_findIdx key keys keys 0 (by simp) (by simp)
      rw [← hn] at this
      simpa using this
    by_cases hc : keys.findIdx (fun k => decide (key ≤ k)) < keys.length ∧
        keys.getD (keys.findIdx (fun k => decide (key ≤ k))) 0 = key
    · have hilt : keys.findIdx (fun k => decide (key ≤ k)) < n := by omega
      have hki : keys[keys.findIdx (fun k => decide (key ≤ k))]? =
          some keys[keys.findIdx (fun k => decide (key ≤ k))] :=
        List.getElem?_eq_getElem (by omega)
      have hbeq : (key == keys[keys.findIdx (fun k => decide (key ≤ k))]) = true := by
        simp only [beq_iff_eq]
        rw [← getD_of_getElem? hki]
        exact hc.2.symm
      simp only [searchRec, hfi, if_pos hilt, hki, hbeq, if_true]
      simp only [searchSpec]
      rw [if_pos hc]
    · simp only [searchSpec]
      rw [if_neg hc]
      by_cases hilt : keys.findIdx (fun k => decide (key ≤ k)) < n
      · have hki : keys[keys.findIdx (fun k => decide (key ≤ k))]? =
            some keys[keys.findIdx (fun k => decide (key ≤ k))] :=
          List.getElem?_eq_getElem (by omega)
        have hbeq : (key == keys[keys.findIdx (fun k => decide (key ≤ k))]) = false := by
          simp only [beq_eq_false_iff_ne, ne_eq]
          intro hEq
          exact hc ⟨by omega, by rw [getD_of_getElem? hki, ← hEq]⟩
        simp only [searchRec, hfi, if_pos hilt, hki, hbeq, if_false, Bool.false_eq_true]
      · simp only [searchRec, hfi, if_neg hilt]
  | succ fuel ih =>
    intro node root hwf
    cases node with
    | mk l keys children n =>
    obtain ⟨hn, -, -, -, -, hchw⟩ := wfNode_mk.mp hwf
    have hfi : scanGe key n keys 0 = some (keys.findIdx (fun k => decide (key ≤ k))) := by
      have := scanGe_eq_findIdx key keys keys 0 (by simp) (by simp)
      rw [← hn] at this
      simpa using this
    by_cases hc : keys.findIdx (fun k => decide (key ≤ k)) < keys.length ∧
        keys.getD (keys.findIdx (fun k => decide (key ≤ k))) 0 = key
    · have hilt : keys.findIdx (fun k => decide (key ≤ k)) < n := by omega
      have hki : keys[keys.findIdx (fun k => decide (key ≤ k))]? =
          some keys[keys.findIdx (fun k => decide (key ≤ k))] :=
        List.getElem?_eq_getElem (by omega)
      have hbeq : (key == keys[keys.findIdx (fun k => decide (key ≤ k))]) = true := by
        simp only [beq_iff_eq]
        rw [← getD_of_getElem? hki]
        exact hc.2.symm
      simp only [searchRec, hfi, if_pos hilt, hki, hbeq, if_true]
      simp only [searchSpec]
      rw [if_pos hc]
    · simp only [searchSpec]
      rw [if_neg hc]
      by_cases hilt : keys.findIdx (fun k => decide (key ≤ k)) < n
      · have hki : keys[keys.findIdx (fun k => decide (key ≤ k))]? =
            some keys[keys.findIdx (fun k => decide (key ≤ k))] :=
          List.getElem?_eq_getElem (by omega)
        have hbeq : (key == keys[keys.findIdx (fun k => decide (key ≤ k))]) = false := by
          simp only [beq_eq_false_iff_ne, ne_eq]
          intro hEq
          exact hc ⟨by omega, by rw [getD_of_getElem? hki, ← hEq]⟩
        simp only [searchRec, hfi, if_pos hilt, hki, hbeq, if_false, Bool.false_eq_true]
        cases l with
        | true => simp
        | false =>
          simp only [if_false, Bool.false_eq_true]
          rcases hcc : children[keys.findIdx (fun k => decide (key ≤ k))]? with _ | c
          · simp
          · have hcmem : c ∈ children := by
              have := List.getElem?_eq_some_iff.mp hcc
              exact this.2 ▸ List.getElem_mem this.1
            simp only []
            exact ih c false (hchw c hcmem)
      · simp only [searchRec, hfi, if_neg hilt]
        cases l with
        | true => simp
        | false =>
          simp only [if_false, Bool.false_eq_true]
          rcases hcc : children[keys.findIdx (fun k => decide (key ≤ k))]? with _ | c
          · simp
          · have hcmem : c ∈ children := by
              have := List.getElem?_eq_some_iff.mp hcc
              exact this.2 ▸ List.getElem_mem this.1
            simp only []
            exact ih c false (hchw c hcmem)

/-! ### Claim C1: functional correctness of the B-tree -/

/-- C1: for every order `t ≥ 2` and every duplicate-free key list inserted into
a fresh `BTree(t)`, `search` finds every inserted key — returning a node and an
index such that the node's key at that index is the key — and returns the
`NotFound` sentinel for every other key; the in-order traversal of the tree is
a permutation of the inserted keys in strictly increasing order. -/
theorem C1_btree_functional_correctness {t : Nat} {ks : List Int} {tr : BTree} (ht : 2 ≤ t)
    (hnd : ks.Nodup) (hb : buildTree t ks = some tr) :
    (∀ k ∈ ks, ∃ nd i, tr.search k = some (some (nd, i)) ∧ nd.keys[i]? = some k) ∧
    (∀ k : Int, k ∉ ks → tr.search k = some none) ∧
    List.Perm (inorder tr.root) ks ∧ List.Pairwise (· < ·) (inorder tr.root) := by
  obtain ⟨tr2, heq, htt, hwf, hbal, hperm⟩ := buildTree_master ht ks
  rw [hb] at heq
  cases heq
  have hord := buildTree_ordered ht hnd hb
  refine ⟨?_, ?_, hperm, nodeOrdered_pairwise tr.root none none hord⟩
  · intro k hk
    have hmem : k ∈ inorder tr.root := hperm.mem_iff.mpr hk
    obtain ⟨nd, i, hfind, hkey⟩ :=
      (searchRec_correct (t := t) k (tsize tr.root) tr.root true none none le_rfl hwf hord).1
        hmem
    exact ⟨nd, i, hfind, hkey⟩
  · intro k hk
    have hmem : k ∉ inorder tr.root := fun h => hk (hperm.mem_iff.mp h)
    exact (searchRec_correct (t := t) k (tsize tr.root) tr.root true none none le_rfl hwf
      hord).2 hmem

/-- Witness for C1: order 2, keys `[2, 1, 3]`. -/
theorem C1_btree_functional_correctness_witness :
    (∀ k ∈ ([2, 1, 3] : List Int), ∃ nd i,
      ((buildTree 2 [2, 1, 3]).getD (BTree.new 2)).search k = some (some (nd, i)) ∧
      nd.keys[i]? = some k) ∧
    (∀ k : Int, k ∉ ([2, 1, 3] : List Int) →
      ((buildTree 2 [2, 1, 3]).getD (BTree.new 2)).search k = some none) ∧
    List.Perm (inorder ((buildTree 2 [2, 1, 3]).getD (BTree.new 2)).root) [2, 1, 3] ∧
    List.Pairwise (· < ·) (inorder ((buildTree 2 [2, 1, 3]).getD (BTree.new 2)).root) :=
  @C1_btree_functional_correctness 2 [2, 1, 3] ((buildTree 2 [2, 1, 3]).getD (BTree.new 2))
    (by decide) (by decide) rfl

/-- C5: on every tree built by inserts, `search` computes exactly the spec's
step description `searchSpec`: locate the first key `≥ target`; return the
match if that position holds the target; otherwise return `NotFound` at a leaf
or descend into the child at that index (no backtracking: the recursion visits
a single root-to-leaf path). -/
theorem C5_search_follows_spec {t : Nat} {ks : List Int} {tr : BTree} (ht : 2 ≤ t)
    (hb : buildTree t ks = some tr) (key : Int) :
    tr.search key = searchSpec key (tsize tr.root) tr.root := by
  obtain ⟨tr2, heq, htt, hwf, -, -⟩ := buildTree_master ht ks
  rw [hb] at heq
  cases heq
  rw [BTree.search]
  exact searchRec_eq_searchSpec key (tsize tr.root) tr.root true hwf

/-- Witness for C5: order 2, keys `[3, 1, 2]`, searching 2 and 5. -/
theorem C5_search_follows_spec_witness :
    ((buildTree 2 [3, 1, 2]).getD (BTree.new 2)).search 5 =
      searchSpec 5 (tsize ((buildTree 2 [3, 1, 2]).getD (BTree.new 2)).root)
        ((buildTree 2 [3, 1, 2]).getD (BTree.new 2)).root :=
  @C5_search_follows_spec 2 [3, 1, 2] ((buildTree 2 [3, 1, 2]).getD (BTree.new 2))
    (by decide) rfl 5

/-- C6 as the spec states it is false: in the tree of order 2 built by
inserting `[1, 2, 3, 4]`, the root holds key `2` with right child `[3, 4]`,
whose keys are not `≤ keys[0] = 2`. -/
theorem C6_counterexample :
    (buildTree 2 [1, 2, 3, 4]).map (fun tr => specC6 tr.root) = some false := by
  decide

/-- C6 amended: in every tree built by inserting distinct keys, for every
internal node with `k` keys, all keys in the subtree of `children[i]` are
strictly greater than `keys[i-1]` when `i > 0` (the spec wrote `≤ keys[i-1]`)
and strictly less than `keys[i]` when `i < k`. -/
theorem C6_subtree_order_amended {t : Nat} {ks : List Int} {tr : BTree} (ht : 2 ≤ t)
    (hnd : ks.Nodup) (hb : buildTree t ks = some tr) : subtreeOrder tr.root = true :=
  subtreeOrder_of_ordered tr.root none none (buildTree_ordered ht hnd hb)

/-- Witness for the amended C6: order 2, keys `[1, 2, 3, 4]`. -/
theorem C6_subtree_order_amended_witness :
    subtreeOrder ((buildTree 2 [1, 2, 3, 4]).getD (BTree.new 2)).root = true :=
  @C6_subtree_order_amended 2 [1, 2, 3, 4] ((buildTree 2 [1, 2, 3, 4]).getD (BTree.new 2))
    (by decide) (by decide) rfl

/-- C7: on the fresh tree and on every tree built by inserts, `search` always
completes with a value — the found pair or the `NotFound` sentinel — and never
raises: in the embedding, the result is `some r`, while any out-of-bounds
index during the descent would produce `none`. -/
theorem C7_search_total {t : Nat} (ht : 2 ≤ t) :
    (∀ key : Int, ∃ r, (BTree.new t).search key = some r) ∧
    (∀ ks tr, buildTree t ks = some tr → ∀ key : Int, ∃ r, tr.search key = some r) := by
  have hwfnew : wfNode t true (BTree.new t).root = true := by
    show wfNode t true (.mk true [] [] 0) = true
    rw [wfNode_mk]
    refine ⟨rfl, by simp, Or.inl rfl, fun _ => rfl, by simp, by simp⟩
  constructor
  · intro key
    exact searchRec_total key (tsize (BTree.new t).root) (BTree.new t).root true le_rfl hwfnew
  · intro ks tr hb key
    obtain ⟨tr2, heq, -, hwf, -, -⟩ := buildTree_master ht ks
    rw [hb] at heq
    cases heq
    exact searchRec_total key (tsize tr.root) tr.root true le_rfl hwf

/-- Witness for C7: order 3. -/
theorem C7_search_total_witness :
    (∀ key : Int, ∃ r, (BTree.new 3).search key = some r) ∧
    (∀ ks tr, buildTree 3 ks = some tr → ∀ key : Int, ∃ r, tr.search key = some r) :=
  C7_search_total (by decide)

/-! ### RMI: binary-search correctness -/

theorem sortedLe_chain : ∀ {A : List Int}, sortedLe A = true → List.Chain' (· ≤ ·) A := by
  intro A
  induction A with
  | nil => intro _; exact List.chain'_nil
  | cons a l ih =>
    intro h
    cases l with
    | nil => simp
    | cons b l2 =>
      simp only [sortedLe, Bool.and_eq_true, decide_eq_true_eq] at h
      exact List.Chain'.cons h.1 (ih h.2)

theorem sortedLe_pairwise {A : List Int} (h : sortedLe A = true) :
    List.Pairwise (· ≤ ·) A :=
  List.chain'_iff_pairwise.mp (sortedLe_chain h)

theorem pairwise_le_getD {A : List Int} (h : List.Pairwise (· ≤ ·) A) {a b : Nat}
    (hab : a ≤ b) (hb : b < A.length) : A.getD a 0 ≤ A.getD b 0 := by
  rcases Nat.lt_or_ge a b with h2 | h2
  · have ha : a < A.length := by omega
    rw [getD_of_getElem? (List.getElem?_eq_getElem ha),
      getD_of_getElem? (List.getElem?_eq_getElem hb)]
    exact List.pairwise_iff_getElem.mp h a b ha hb h2
  · have : a = b := by omega
    subst this
    exact le_rfl

theorem binSearch_sound {A : List Int} (key : Int) :
    ∀ (fuel lo hi i : Nat), hi < A.length →
      binSearch A key fuel lo hi = some i →
      i < A.length ∧ A.getD i 0 = key := by
  intro fuel
  induction fuel with
  | zero =>
    intro lo hi i _ h
    simp [binSearch] at h
  | succ fuel ih =>
    intro lo hi i hhi h
    simp only [binSearch] at h
    by_cases hlohi : hi < lo
    · rw [if_pos hlohi] at h
      simp at h
    · rw [if_neg hlohi] at h
      by_cases hv : A.getD ((lo + hi) / 2) 0 == key
      · rw [if_pos hv] at h
        simp only [Option.some_inj] at h
        subst h
        exact ⟨by omega, by simpa using hv⟩
      · rw [if_neg hv] at h
        by_cases hlt : A.getD ((lo + hi) / 2) 0 < key
        · rw [if_pos hlt] at h
          exact ih ((lo + hi) / 2 + 1) hi i hhi h
        · rw [if_neg hlt] at h
          exact ih lo ((lo + hi) / 2 - 1) i (by omega) h

theorem binSearch_complete {A : List Int} (key : Int) (hA : List.Pairwise (· ≤ ·) A) :
    ∀ (fuel lo hi j : Nat), hi < A.length → lo ≤ j → j ≤ hi → A.getD j 0 = key →
      hi + 1 - lo ≤ fuel →
      ∃ i, binSearch A key fuel lo hi = some i := by
  intro fuel
  induction fuel with
  | zero =>
    intro lo hi j _ h1 h2 _ hf
    omega
  | succ fuel ih =>
    intro lo hi j hhi hj1 hj2 hjkey hf
    have hlohi : ¬ hi < lo := by omega
    simp only [binSearch, if_neg hlohi]
    by_cases hv : A.getD ((lo + hi) / 2) 0 == key
    · exact ⟨(lo + hi) / 2, by rw [if_pos hv]⟩
    · rw [if_neg hv]
      have hvne : A.getD ((lo + hi) / 2) 0 ≠ key := by simpa using hv
      by_cases hlt : A.getD ((lo + hi) / 2) 0 < key
      · rw [if_pos hlt]
        have hjgt : (lo + hi) / 2 + 1 ≤ j := by
          by_contra hcon
          have hj3 : j ≤ (lo + hi) / 2 := by omega
          have := pairwise_le_getD hA hj3 (by omega)
          omega
        exact ih ((lo + hi) / 2 + 1) hi j hhi hjgt hj2 hjkey (by omega)
      · rw [if_neg hlt]
        have hvgt : key < A.getD ((lo + hi) / 2) 0 := by omega
        have hjlt : j < (lo + hi) / 2 := by
          by_contra hcon
          have hj3 : (lo + hi) / 2 ≤ j := by omega
          have := pairwise_le_getD hA hj3 (by omega)
          omega
        exact ih lo ((lo + hi) / 2 - 1) j (by omega) hj1 (by omega) hjkey (by omega)

/-! ### Claim C8: exactness of the RMI search -/

/-- C8: for every sorted non-empty array, every choice of stage-0 model, leaf
models and error bounds — that is, regardless of the quality of the fit and
even of the error bounds, thanks to the spec's defensive full-array fallback —
`RMIModel.search` returns a valid index holding every present key and the
`NotFound` sentinel (`none`) for every absent key. -/
theorem C8_rmi_search_exact (stage0 : LinearModel) (leaves : List RMILeaf) (A : List Int)
    (hA : sortedLe A = true) (hne : A ≠ []) (key : Int) :
    (key ∈ A → ∃ i, (RMIModel.mk stage0 leaves A).search key = some i ∧
      i < A.length ∧ A.getD i 0 = key) ∧
    (key ∉ A → (RMIModel.mk stage0 leaves A).search key = none) := by
  have hp := sortedLe_pairwise hA
  have hlen : 0 < A.length := by
    cases A with
    | nil => exact absurd rfl hne
    | cons a l => simp
  set r : RMIModel := RMIModel.mk stage0 leaves A with hr
  have hdata : r.data = A := rfl
  set p := r.predictPos key with hpdef
  set wlo := p.1 - p.2 with hwlo
  set whi := min (r.data.length - 1) (p.1 + p.2) with hwhi
  have hwhilt : whi < A.length := by
    rw [hwhi, hdata]
    omega
  have hunfold : r.search key =
      (match binSearch r.data key (r.data.length + 1) wlo whi with
       | some i => some i
       | none => binSearch r.data key (r.data.length + 1) 0 (r.data.length - 1)) := by
    rw [RMIModel.search]
  constructor
  · intro hmem
    obtain ⟨j, hjlen, hjEq⟩ := List.mem_iff_getElem.mp hmem
    have hjD : A.getD j 0 = key := by
      rw [getD_of_getElem? (List.getElem?_eq_getElem hjlen), hjEq]
    rcases hwin : binSearch r.data key (r.data.length + 1) wlo whi with _ | i
    · obtain ⟨i, hfull⟩ := binSearch_complete key hp (A.length + 1) 0 (A.length - 1) j
        (by omega) (by omega) (by omega) hjD (by omega)
      obtain ⟨hilen, hiD⟩ := binSearch_sound key (A.length + 1) 0 (A.length - 1) i
        (by omega) hfull
      refine ⟨i, ?_, hilen, hiD⟩
      rw [hunfold, hwin, hdata]
      exact hfull
    · obtain ⟨hilen, hiD⟩ := binSearch_sound key (r.data.length + 1) wlo whi i
        (by rw [hdata]; exact hwhilt) hwin
      refine ⟨i, ?_, by rw [hdata] at hilen; exact hilen, by rw [hdata] at hiD; exact hiD⟩
      rw [hunfold, hwin]
  · intro hno
    rcases hwin : binSearch r.data key (r.data.length + 1) wlo whi with _ | i
    · rcases hfull : binSearch r.data key (r.data.length + 1) 0 (r.data.length - 1) with _ | i
      · rw [hunfold, hwin, hfull]
      · obtain ⟨hilen, hiD⟩ := binSearch_sound key (r.data.length + 1) 0 (r.data.length - 1) i
          (by rw [hdata]; omega) hfull
        rw [hdata] at hilen hiD
        exact absurd (hiD ▸ getD_mem hilen) hno
    · obtain ⟨hilen, hiD⟩ := binSearch_sound key (r.data.length + 1) wlo whi i
        (by rw [hdata]; exact hwhilt) hwin
      rw [hdata] at hilen hiD
      exact absurd (hiD ▸ getD_mem hilen) hno

/-- Witness for C8: a deliberately bad model (all-zero line, no leaves) over
`[1, 3, 5]`. -/
theorem C8_rmi_search_exact_witness :
    (((3 : Int) ∈ ([1, 3, 5] : List Int) → ∃ i,
      (RMIModel.mk ⟨0, 0⟩ [] [1, 3, 5]).search 3 = some i ∧
      i < ([1, 3, 5] : List Int).length ∧ ([1, 3, 5] : List Int).getD i 0 = 3) ∧
    ((3 : Int) ∉ ([1, 3, 5] : List Int) → (RMIModel.mk ⟨0, 0⟩ [] [1, 3, 5]).search 3 = none)) ∧
    (((4 : Int) ∈ ([1, 3, 5] : List Int) → ∃ i,
      (RMIModel.mk ⟨0, 0⟩ [] [1, 3, 5]).search 4 = some i ∧
      i < ([1, 3, 5] : List Int).length ∧ ([1, 3, 5] : List Int).getD i 0 = 4) ∧
    ((4 : Int) ∉ ([1, 3, 5] : List Int) → (RMIModel.mk ⟨0, 0⟩ [] [1, 3, 5]).search 4 = none)) :=
  ⟨C8_rmi_search_exact ⟨0, 0⟩ [] [1, 3, 5] (by decide) (by decide) 3,
   C8_rmi_search_exact ⟨0, 0⟩ [] [1, 3, 5] (by decide) (by decide) 4⟩
